import Mathlib

/-!
Shallow embedding, in Lean 4, of the geometry kernel and spatial index of the
`arcs` CAD library (Rust), together with theorems settling a list of claims
about it.  `f64` arithmetic is modelled as exact real arithmetic; the
two-argument arctangent `y.atan2(x)` is modelled as the complex argument of
`x + y·i`; `euclid` vector/rect operations are translated from the `euclid`
crate's source.
-/

noncomputable section

namespace Arcs

/-- Embedding of `euclid::Vector2D<f64, S>` / `Point2D<f64, S>`: a pair of real
coordinates. -/
structure Vec2 where
  x : ℝ
  y : ℝ

instance : Add Vec2 := ⟨fun a b => ⟨a.x + b.x, a.y + b.y⟩⟩

instance : Sub Vec2 := ⟨fun a b => ⟨a.x - b.x, a.y - b.y⟩⟩

theorem Vec2.add_def (a b : Vec2) : a + b = ⟨a.x + b.x, a.y + b.y⟩ := rfl

theorem Vec2.sub_def (a b : Vec2) : a - b = ⟨a.x - b.x, a.y - b.y⟩ := rfl

/-- Embedding of `Vector2D::dot`. -/
def Vec2.dot (a b : Vec2) : ℝ := a.x * b.x + a.y * b.y

/-- Embedding of `Vector2D::cross`: `self.x * other.y - self.y * other.x`. -/
def Vec2.cross (a b : Vec2) : ℝ := a.x * b.y - a.y * b.x

/-- Embedding of `Vector2D::length`: `(x*x + y*y).sqrt()`. -/
def Vec2.length (v : Vec2) : ℝ := Real.sqrt (v.x * v.x + v.y * v.y)

/-- Embedding of `Vector2D::normalize`: `self / self.length()` (the `euclid`
crate performs no zero-length guard). -/
def Vec2.normalize (v : Vec2) : Vec2 := ⟨v.x / v.length, v.y / v.length⟩

/-- Scalar multiplication `v * s` on `euclid` vectors. -/
def Vec2.smul (v : Vec2) (s : ℝ) : Vec2 := ⟨v.x * s, v.y * s⟩

/-- Embedding of `Vector2D::angle_from_x_axis`, i.e. `self.y.atan2(self.x)`:
the two-argument arctangent of `(y, x)` is exactly the argument of the complex
number `x + y·i`. -/
def Vec2.angle_from_x_axis (v : Vec2) : ℝ := Complex.arg ⟨v.x, v.y⟩

/-- Embedding of `BoundingBox` (`src/core/src/bounding_box.rs`, identical
shape to the one in `src/arcs/src/algorithms/bounding_box.rs`). -/
structure BoundingBox where
  bottom_left : Vec2
  top_right : Vec2

namespace BoundingBox

/-- Embedding of `BoundingBox::new`: componentwise min/max of the two given
corner points. -/
def new (first second : Vec2) : BoundingBox :=
  ⟨⟨min first.x second.x, min first.y second.y⟩,
   ⟨max first.x second.x, max first.y second.y⟩⟩

/-- Embedding of `BoundingBox::min_x`. -/
def min_x (b : BoundingBox) : ℝ := b.bottom_left.x

/-- Embedding of `BoundingBox::min_y`. -/
def min_y (b : BoundingBox) : ℝ := b.bottom_left.y

/-- Embedding of `BoundingBox::max_x`. -/
def max_x (b : BoundingBox) : ℝ := b.top_right.x

/-- Embedding of `BoundingBox::max_y`. -/
def max_y (b : BoundingBox) : ℝ := b.top_right.y

/-- Embedding of `BoundingBox::width`. -/
def width (b : BoundingBox) : ℝ := b.top_right.x - b.bottom_left.x

/-- Embedding of `BoundingBox::height`. -/
def height (b : BoundingBox) : ℝ := b.top_right.y - b.bottom_left.y

/-- Embedding of `BoundingBox::merge`:
`BoundingBox::new(left.bottom_left, right.top_right)`.  Note that it looks at
only one corner of each argument. -/
def merge (left right : BoundingBox) : BoundingBox :=
  new left.bottom_left right.top_right

/-- Embedding of `BoundingBox::around` applied to a collection of points (each
point's own bounding box is the degenerate box at that point); the fold is
exactly the source's `fold(None, ...)`. -/
def around_points (points : List Vec2) : Option BoundingBox :=
  (points.map (fun p => new p p)).foldl
    (fun acc item =>
      match acc with
      | some a => some (merge a item)
      | none => some item)
    none

/-- Embedding of `BoundingBox::fully_contains`. -/
def fully_contains (a other : BoundingBox) : Prop :=
  a.min_x ≤ other.min_x ∧ other.max_x ≤ a.max_x ∧
    a.min_y ≤ other.min_y ∧ other.max_y ≤ a.max_y

/-- Embedding of `BoundingBox::intersects_with`, which the source implements
as `self.fully_contains(other)` (marked `FIXME` there). -/
def intersects_with (a other : BoundingBox) : Prop := a.fully_contains other

/-- Modelled from the spec: true axis-aligned rectangle overlap ("real
rectangle-overlap", the reference semantics the spec compares
`intersects_with` against). -/
def overlaps (a b : BoundingBox) : Prop :=
  a.min_x ≤ b.max_x ∧ b.min_x ≤ a.max_x ∧ a.min_y ≤ b.max_y ∧ b.min_y ≤ a.max_y

end BoundingBox

/-- C9: for all bounding boxes `a` and `b`, `intersects_with` holds exactly
when `a` fully contains `b` (componentwise containment of extents), and there
are genuinely overlapping boxes (boxes overlapping in the real
rectangle-overlap sense) for which it is false, so the test under-reports true
overlaps. -/
theorem c9_intersects_with_is_containment :
    (∀ a b : BoundingBox,
      a.intersects_with b ↔
        (a.min_x ≤ b.min_x ∧ b.max_x ≤ a.max_x ∧
          a.min_y ≤ b.min_y ∧ b.max_y ≤ a.max_y)) ∧
    (∃ a b : BoundingBox, BoundingBox.overlaps a b ∧ ¬ a.intersects_with b) := by
  constructor
  · intro a b
    exact Iff.rfl
  · refine ⟨BoundingBox.new ⟨0, 0⟩ ⟨2, 2⟩, BoundingBox.new ⟨1, 1⟩ ⟨3, 3⟩, ?_, ?_⟩
    · simp only [BoundingBox.overlaps, BoundingBox.new, BoundingBox.min_x,
        BoundingBox.max_x, BoundingBox.min_y, BoundingBox.max_y]
      norm_num
    · simp only [BoundingBox.intersects_with, BoundingBox.fully_contains,
        BoundingBox.new, BoundingBox.min_x, BoundingBox.max_x,
        BoundingBox.min_y, BoundingBox.max_y]
      norm_num

/-- C4 (failing evaluation): `BoundingBox::around` on the points
`(0,0), (10,10), (5,5)` returns the box from `(0,0)` to `(5,5)`, which fails
to encompass the input point `(10,10)` — `merge` discards the accumulated
box's `top_right` corner — so `around` does not return the componentwise
min/max rectangle. -/
theorem c4_around_misses_a_point :
    BoundingBox.around_points [⟨0, 0⟩, ⟨10, 10⟩, ⟨5, 5⟩]
        = some (BoundingBox.mk ⟨0, 0⟩ ⟨5, 5⟩) ∧
    ¬ (BoundingBox.mk ⟨0, 0⟩ ⟨5, 5⟩).fully_contains
        (BoundingBox.new ⟨10, 10⟩ ⟨10, 10⟩) ∧
    (BoundingBox.mk ⟨0, 0⟩ ⟨5, 5⟩).max_x ≠ max (max 0 10) 5 := by
  refine ⟨?_, ?_, ?_⟩
  · simp only [BoundingBox.around_points, List.map, List.foldl,
      BoundingBox.merge, BoundingBox.new, Option.some.injEq]
    have h1 : min (0:ℝ) 10 = 0 := by norm_num
    have h2 : max (0:ℝ) 10 = 10 := by norm_num
    norm_num
  · simp only [BoundingBox.fully_contains, BoundingBox.new, BoundingBox.min_x,
      BoundingBox.max_x, BoundingBox.min_y, BoundingBox.max_y]
    norm_num
  · simp only [BoundingBox.max_x]
    norm_num

/-- Embedding of `Orientation` (`src/core/src/orientation.rs`). -/
inductive Orientation where
  | clockwise
  | anticlockwise
  | collinear
deriving DecidableEq

/-- Embedding of `Orientation::of`. -/
def Orientation.of (first second third : Vec2) : Orientation :=
  let value := (second.y - first.y) * (third.x - second.x)
      - (second.x - first.x) * (third.y - second.y)
  if 0 < value then Orientation.clockwise
  else if value < 0 then Orientation.anticlockwise
  else Orientation.collinear

/-- Embedding of `centre_of_three_points` (`src/core/src/orientation.rs`). -/
def centre_of_three_points (first second third : Vec2) : Option Vec2 :=
  let temp := Vec2.dot second second
  let bc := (Vec2.dot first first - temp) / 2
  let cd := (temp - third.x * third.x - third.y * third.y) / 2
  let determinant := (first.x - second.x) * (second.y - third.y)
      - (second.x - third.x) * (first.y - second.y)
  if determinant = 0 then none
  else
    some ⟨(bc * (second.y - third.y) - cd * (first.y - second.y)) / determinant,
          ((first.x - second.x) * cd - (second.x - third.x) * bc) / determinant⟩

/-- Embedding of `Arc` (`src/core/src/primitives/arc.rs`), with angles in
radians (`euclid::Angle` is a newtype over its radian value). -/
structure Arc where
  centre : Vec2
  radius : ℝ
  start_angle : ℝ
  sweep_angle : ℝ

/-- Embedding of `Arc::end_angle`. -/
def Arc.end_angle (arc : Arc) : ℝ := arc.start_angle + arc.sweep_angle

/-- Embedding of `Arc::point_at` from `src/core/src/primitives/arc.rs`:
`centre + (r·cos(start+angle), r·sin(start+angle))`. -/
def Arc.point_at (arc : Arc) (angle : ℝ) : Vec2 :=
  arc.centre + ⟨arc.radius * Real.cos (arc.start_angle + angle),
                arc.radius * Real.sin (arc.start_angle + angle)⟩

/-- Embedding of `Arc::start`. -/
def Arc.start (arc : Arc) : Vec2 := arc.point_at 0

/-- Embedding of `Arc::end`. -/
def Arc.end_point (arc : Arc) : Vec2 := arc.point_at arc.sweep_angle

/-- Embedding of `Arc::contains_angle`: order the start/end angles, then test
membership of the closed interval. -/
def Arc.contains_angle (arc : Arc) (angle : ℝ) : Prop :=
  let p : ℝ × ℝ :=
    if arc.start_angle < arc.end_angle then (arc.start_angle, arc.end_angle)
    else (arc.end_angle, arc.start_angle)
  p.1 ≤ angle ∧ angle ≤ p.2

theorem Arc.contains_angle_iff (arc : Arc) (angle : ℝ) :
    arc.contains_angle angle ↔
      min arc.start_angle arc.end_angle ≤ angle ∧
        angle ≤ max arc.start_angle arc.end_angle := by
  unfold Arc.contains_angle
  split_ifs with h
  · rw [min_eq_left h.le, max_eq_right h.le]
  · push_neg at h
    rw [min_eq_right h, max_eq_left h]

/-- Embedding of `sweep_angle_from_3_points` (`src/core/src/primitives/arc.rs`,
identical in `src/arcs/src/arc.rs`).  Note the second branch returns
`Angle::two_pi() - angular_difference`. -/
def sweep_angle_from_3_points (start middle end_ centre : Vec2) : ℝ :=
  let start_ray := start - centre
  let end_ray := end_ - centre
  let orientation := Orientation.of start middle end_
  let angular_difference :=
    end_ray.angle_from_x_axis - start_ray.angle_from_x_axis
  if 0 < angular_difference ∧ orientation = Orientation.clockwise then
    angular_difference - 2 * Real.pi
  else if angular_difference < 0 ∧ orientation = Orientation.anticlockwise then
    2 * Real.pi - angular_difference
  else
    angular_difference

/-- Embedding of `Arc::from_three_points`. -/
def Arc.from_three_points (start middle end_ : Vec2) : Option Arc :=
  match centre_of_three_points start middle end_ with
  | none => none
  | some centre =>
      some ⟨centre, (start - centre).length,
            (start - centre).angle_from_x_axis,
            sweep_angle_from_3_points start middle end_ centre⟩

theorem Orientation.of_eq_collinear_iff (a b c : Vec2) :
    Orientation.of a b c = Orientation.collinear ↔
      (b.y - a.y) * (c.x - b.x) - (b.x - a.x) * (c.y - b.y) = 0 := by
  unfold Orientation.of
  dsimp only
  split_ifs with h1 h2
  · simp only [reduceCtorEq, false_iff]
    intro h
    rw [h] at h1
    exact lt_irrefl 0 h1
  · simp only [reduceCtorEq, false_iff]
    intro h
    rw [h] at h2
    exact lt_irrefl 0 h2
  · simp only [true_iff]
    push_neg at h1 h2
    linarith

theorem centre_of_three_points_eq_none_iff (a b c : Vec2) :
    centre_of_three_points a b c = none ↔
      (a.x - b.x) * (b.y - c.y) - (b.x - c.x) * (a.y - b.y) = 0 := by
  unfold centre_of_three_points
  dsimp only
  split_ifs with h
  · simp only [true_iff]
    exact h
  · simp only [reduceCtorEq, false_iff]
    exact h

theorem centre_of_three_points_equidistant (a b c u : Vec2)
    (h : centre_of_three_points a b c = some u) :
    ((a - u).x * (a - u).x + (a - u).y * (a - u).y
        = (b - u).x * (b - u).x + (b - u).y * (b - u).y) ∧
    ((b - u).x * (b - u).x + (b - u).y * (b - u).y
        = (c - u).x * (c - u).x + (c - u).y * (c - u).y) := by
  unfold centre_of_three_points at h
  dsimp only at h
  split_ifs at h with hd
  simp only [Option.some.injEq] at h
  subst h
  simp only [Vec2.sub_def, Vec2.dot]
  constructor
  · field_simp
    ring
  · field_simp
    ring

/-- C7: `Arc::from_three_points` returns `None` exactly when the circumcentre
determinant vanishes, which happens exactly when the three points are
collinear per the cross-product orientation test; on success the returned
arc's centre is equidistant from all three input points (the circumcentre),
its radius is the distance from the first point to that centre, and its start
angle is the angle of `first - centre` from the x-axis. -/
theorem c7_from_three_points_charact :
    ∀ a b c : Vec2,
      (Arc.from_three_points a b c = none ↔
        (a.x - b.x) * (b.y - c.y) - (b.x - c.x) * (a.y - b.y) = 0) ∧
      (Arc.from_three_points a b c = none ↔
        Orientation.of a b c = Orientation.collinear) ∧
      (∀ t : Arc, Arc.from_three_points a b c = some t →
        ((a - t.centre).length = (b - t.centre).length ∧
          (b - t.centre).length = (c - t.centre).length) ∧
        t.radius = (a - t.centre).length ∧
        t.start_angle = (a - t.centre).angle_from_x_axis) := by
  intro a b c
  have hdet : Arc.from_three_points a b c = none ↔
      (a.x - b.x) * (b.y - c.y) - (b.x - c.x) * (a.y - b.y) = 0 := by
    rw [← centre_of_three_points_eq_none_iff]
    unfold Arc.from_three_points
    cases h : centre_of_three_points a b c <;> simp [h]
  refine ⟨hdet, ?_, ?_⟩
  · rw [hdet, Orientation.of_eq_collinear_iff]
    constructor
    · intro h
      linarith
    · intro h
      linarith
  · intro t ht
    unfold Arc.from_three_points at ht
    cases h : centre_of_three_points a b c with
    | none => rw [h] at ht; exact absurd ht (by simp)
    | some u =>
        rw [h] at ht
        simp only [Option.some.injEq] at ht
        subst ht
        have heq := centre_of_three_points_equidistant a b c u h
        refine ⟨⟨?_, ?_⟩, rfl, rfl⟩
        · unfold Vec2.length
          rw [heq.1]
        · unfold Vec2.length
          rw [heq.2]

/-- Witness for C7 at the concrete points `(1,0)`, `(-1,0)`, `(0,1)` (the
resulting arc is centred on the origin). -/
theorem c7_witness :
    ((((⟨1, 0⟩ : Vec2) - (⟨0, 0⟩ : Vec2)).length
        = (((⟨-1, 0⟩ : Vec2)) - (⟨0, 0⟩ : Vec2)).length ∧
      (((⟨-1, 0⟩ : Vec2)) - (⟨0, 0⟩ : Vec2)).length
        = (((⟨0, 1⟩ : Vec2)) - (⟨0, 0⟩ : Vec2)).length) ∧
     ((⟨1, 0⟩ : Vec2) - (⟨0, 0⟩ : Vec2)).length
        = (((⟨1, 0⟩ : Vec2)) - (⟨0, 0⟩ : Vec2)).length ∧
     ((⟨1, 0⟩ : Vec2) - (⟨0, 0⟩ : Vec2)).angle_from_x_axis
        = (((⟨1, 0⟩ : Vec2)) - (⟨0, 0⟩ : Vec2)).angle_from_x_axis) := by
  have hc : centre_of_three_points ⟨1, 0⟩ ⟨-1, 0⟩ ⟨0, 1⟩ = some ⟨0, 0⟩ := by
    unfold centre_of_three_points
    rw [if_neg (by norm_num [Vec2.dot])]
    simp only [Vec2.dot, Option.some.injEq, Vec2.mk.injEq]
    norm_num
  have ht : Arc.from_three_points ⟨1, 0⟩ ⟨-1, 0⟩ ⟨0, 1⟩
      = some ⟨⟨0, 0⟩, ((⟨1, 0⟩ : Vec2) - (⟨0, 0⟩ : Vec2)).length,
          ((⟨1, 0⟩ : Vec2) - (⟨0, 0⟩ : Vec2)).angle_from_x_axis,
          sweep_angle_from_3_points ⟨1, 0⟩ ⟨-1, 0⟩ ⟨0, 1⟩ ⟨0, 0⟩⟩ := by
    unfold Arc.from_three_points
    rw [hc]
  have := (c7_from_three_points_charact ⟨1, 0⟩ ⟨-1, 0⟩ ⟨0, 1⟩).2.2 _ ht
  exact this

theorem arg_mk_pos_imag {r : ℝ} (hr : 0 < r) :
    Complex.arg ⟨0, r⟩ = Real.pi / 2 := by
  have h : (⟨0, r⟩ : ℂ) = (r : ℂ) * Complex.I := by
    apply Complex.ext <;> simp
  rw [h, Complex.arg_real_mul _ hr, Complex.arg_I]

theorem arg_mk_neg_imag {r : ℝ} (hr : 0 < r) :
    Complex.arg ⟨0, -r⟩ = -(Real.pi / 2) := by
  have h : (⟨0, -r⟩ : ℂ) = (r : ℂ) * (-Complex.I) := by
    apply Complex.ext <;> simp
  rw [h, Complex.arg_real_mul _ hr, Complex.arg_neg_I]

theorem arg_mk_pos_real {r : ℝ} (hr : 0 ≤ r) : Complex.arg ⟨r, 0⟩ = 0 := by
  have h : (⟨r, 0⟩ : ℂ) = (r : ℂ) := by
    apply Complex.ext <;> simp
  rw [h, Complex.arg_ofReal_of_nonneg hr]

/-- C3 (failing evaluation): for the anticlockwise triple
`(0,10), (-10,0), (0,-10)` on the circle about the origin, the raw angular
difference is `-π` and the orientation is anticlockwise, so the claim (and the
spec) require the sweep angle `-π + 2π = π`; the code instead computes
`2π - (-π) = 3π`, whose magnitude exceeds `2π`. -/
theorem c3_sweep_angle_wraps_wrong_way :
    sweep_angle_from_3_points ⟨0, 10⟩ ⟨-10, 0⟩ ⟨0, -10⟩ ⟨0, 0⟩ = 3 * Real.pi ∧
    Arc.from_three_points ⟨0, 10⟩ ⟨-10, 0⟩ ⟨0, -10⟩
        = some ⟨⟨0, 0⟩, 10, Real.pi / 2, 3 * Real.pi⟩ ∧
    2 * Real.pi < |(3 : ℝ) * Real.pi| ∧
    (3 * Real.pi : ℝ) ≠ -Real.pi + 2 * Real.pi := by
  have hpi := Real.pi_pos
  have hstart : ((⟨0, 10⟩ : Vec2) - ⟨0, 0⟩).angle_from_x_axis = Real.pi / 2 := by
    simp only [Vec2.sub_def, Vec2.angle_from_x_axis]
    norm_num
    exact arg_mk_pos_imag (by norm_num)
  have hend : ((⟨0, -10⟩ : Vec2) - ⟨0, 0⟩).angle_from_x_axis
      = -(Real.pi / 2) := by
    simp only [Vec2.sub_def, Vec2.angle_from_x_axis]
    norm_num
    have := arg_mk_neg_imag (r := 10) (by norm_num)
    norm_num at this
    exact this
  have horient : Orientation.of ⟨0, 10⟩ ⟨-10, 0⟩ ⟨0, -10⟩
      = Orientation.anticlockwise := by
    unfold Orientation.of
    dsimp only
    rw [if_neg (by norm_num), if_pos (by norm_num)]
  have hsweep :
      sweep_angle_from_3_points ⟨0, 10⟩ ⟨-10, 0⟩ ⟨0, -10⟩ ⟨0, 0⟩
        = 3 * Real.pi := by
    unfold sweep_angle_from_3_points
    dsimp only
    rw [hstart, hend, horient]
    rw [if_neg (by rintro ⟨h, _⟩; nlinarith)]
    rw [if_pos (And.intro (by nlinarith) rfl)]
    ring
  refine ⟨hsweep, ?_, ?_, ?_⟩
  · have hc : centre_of_three_points ⟨0, 10⟩ ⟨-10, 0⟩ ⟨0, -10⟩
        = some ⟨0, 0⟩ := by
      unfold centre_of_three_points
      dsimp only
      rw [if_neg (by norm_num [Vec2.dot])]
      simp only [Vec2.dot, Option.some.injEq, Vec2.mk.injEq]
      norm_num
    unfold Arc.from_three_points
    rw [hc]
    simp only [Option.some.injEq, Arc.mk.injEq]
    refine ⟨trivial, ?_, ?_, hsweep⟩
    · simp only [Vec2.sub_def, Vec2.length]
      norm_num
      rw [show (100 : ℝ) = 10 ^ 2 by norm_num, Real.sqrt_sq (by norm_num)]
    · exact hstart
  · rw [abs_of_pos (by nlinarith)]
    nlinarith
  · intro h
    nlinarith

/-- Embedding of `Line` (`src/core/src/primitives/line.rs`); the `end` field is
called `end_` because `end` is a Lean keyword. -/
structure Line where
  start : Vec2
  end_ : Vec2

/-- Embedding of `Line::displacement`. -/
def Line.displacement (l : Line) : Vec2 := l.end_ - l.start

/-- Embedding of `Line::length`. -/
def Line.length (l : Line) : ℝ := l.displacement.length

/-- Embedding of `std::f64::EPSILON` (the machine epsilon of `f64`), `2⁻⁵²`. -/
def f64_epsilon : ℝ := 1 / 2 ^ 52

/-- Embedding of the guard constant `SOME_SMALL_NUMBER = f64::EPSILON * 100`
in `Line::perpendicular_distance_to`. -/
def some_small_number : ℝ := f64_epsilon * 100

/-- Embedding of `Line::perpendicular_distance_to`
(`src/core/src/primitives/line.rs`). -/
def Line.perpendicular_distance_to (l : Line) (point : Vec2) : ℝ :=
  let side_a := l.start - point
  let side_b := l.end_ - point
  let area := Vec2.cross side_a side_b / 2
  let base_length := l.length
  if |base_length| < some_small_number then side_a.length
  else |area| * 2 / base_length

/-- C10: `Line::perpendicular_distance_to` is total: whenever the base length
is below `100·f64::EPSILON` it returns the distance from the point to the
line's start instead of dividing, and whenever it does divide the base length
is provably nonzero; in particular a line of two identical points (as produced by
repeated points during simplification) yields the distance to that point. -/
theorem c10_perpendicular_distance_total :
    (∀ (l : Line) (p : Vec2), |l.length| < some_small_number →
        l.perpendicular_distance_to p = (l.start - p).length) ∧
    (∀ (l : Line) (p : Vec2), ¬ |l.length| < some_small_number →
        l.length ≠ 0 ∧
        l.perpendicular_distance_to p
          = |Vec2.cross (l.start - p) (l.end_ - p) / 2| * 2 / l.length) ∧
    (∀ p q : Vec2, (Line.mk p p).perpendicular_distance_to q
        = (p - q).length) := by
  have heps : (0 : ℝ) < some_small_number := by
    norm_num [some_small_number, f64_epsilon]
  refine ⟨?_, ?_, ?_⟩
  · intro l p h
    unfold Line.perpendicular_distance_to
    dsimp only
    rw [if_pos h]
  · intro l p h
    constructor
    · intro h0
      rw [h0] at h
      simp only [abs_zero] at h
      exact h heps
    · unfold Line.perpendicular_distance_to
      dsimp only
      rw [if_neg h]
  · intro p q
    have hz : (Line.mk p p).length = 0 := by
      simp only [Line.length, Line.displacement, Vec2.sub_def, Vec2.length]
      rw [show (p.x - p.x) * (p.x - p.x) + (p.y - p.y) * (p.y - p.y) = 0 by
        ring]
      exact Real.sqrt_zero
    unfold Line.perpendicular_distance_to
    dsimp only
    rw [if_pos (by rw [hz]; simpa using heps)]

/-- Witness for C10: a degenerate line at `(1,1)` returns its distance to the
query point, and the line from `(0,0)` to `(3,4)` (length `5`) has a nonzero
divisor. -/
theorem c10_witness :
    ((Line.mk ⟨1, 1⟩ ⟨1, 1⟩).perpendicular_distance_to ⟨4, 5⟩
        = ((⟨1, 1⟩ : Vec2) - ⟨4, 5⟩).length) ∧
    (Line.mk ⟨0, 0⟩ ⟨3, 4⟩).length ≠ 0 := by
  have h5 : (Line.mk ⟨0, 0⟩ ⟨3, 4⟩).length = 5 := by
    simp only [Line.length, Line.displacement, Vec2.sub_def, Vec2.length]
    norm_num
    rw [show (25 : ℝ) = 5 ^ 2 by norm_num, Real.sqrt_sq (by norm_num)]
  have hz : (Line.mk (⟨1, 1⟩ : Vec2) ⟨1, 1⟩).length = 0 := by
    simp only [Line.length, Line.displacement, Vec2.sub_def, Vec2.length]
    norm_num
  refine ⟨c10_perpendicular_distance_total.1 _ _ ?_,
    (c10_perpendicular_distance_total.2.1 (Line.mk ⟨0, 0⟩ ⟨3, 4⟩) ⟨0, 0⟩ ?_).1⟩
  · rw [hz]
    norm_num [some_small_number, f64_epsilon]
  · rw [h5]
    norm_num [some_small_number, f64_epsilon]

instance : Inhabited Vec2 := ⟨⟨0, 0⟩⟩

/-- Loop body of `max_by_key` (`src/arcs/src/algorithms/line_simplification.rs`):
keep the incoming candidate exactly when its key is strictly greater than the
best key so far (or when there is no best yet). -/
def max_by_key_step (f : Vec2 → ℝ) (best : Option (ℕ × ℝ)) (p : ℕ × Vec2) :
    Option (ℕ × ℝ) :=
  match best with
  | some q => if q.2 < f p.2 then some (p.1, f p.2) else some q
  | none => some (p.1, f p.2)

/-- Embedding of `max_by_key`: a fold of `max_by_key_step` over the items
paired with their indices. -/
def max_by_key (items : List Vec2) (f : Vec2 → ℝ) : Option (ℕ × ℝ) :=
  items.enum.foldl (max_by_key_step f) none

theorem max_by_key_foldl_spec (items : List Vec2) (f : Vec2 → ℝ) :
    ∀ (l : List (ℕ × Vec2)) (acc : Option (ℕ × ℝ)),
      (∀ p ∈ l, p.1 < items.length ∧ p.2 ∈ items) →
      (∀ q, acc = some q → q.1 < items.length ∧ ∃ a ∈ items, q.2 = f a) →
      ∀ q, l.foldl (max_by_key_step f) acc = some q →
        q.1 < items.length ∧ ∃ a ∈ items, q.2 = f a := by
  intro l
  induction l with
  | nil =>
      intro acc _ hacc q hq
      exact hacc q hq
  | cons p rest ih =>
      intro acc hl hacc q hq
      refine ih _ (fun r hr => hl r (List.mem_cons_of_mem _ hr)) ?_ q hq
      intro r hr
      have hp := hl p (List.mem_cons_self _ _)
      unfold max_by_key_step at hr
      cases acc with
      | none =>
          simp only [Option.some.injEq] at hr
          subst hr
          exact ⟨hp.1, p.2, hp.2, rfl⟩
      | some q0 =>
          dsimp only at hr
          split_ifs at hr with hlt
          · simp only [Option.some.injEq] at hr
            subst hr
            exact ⟨hp.1, p.2, hp.2, rfl⟩
          · simp only [Option.some.injEq] at hr
            subst hr
            exact hacc q0 rfl

theorem max_by_key_spec (items : List Vec2) (f : Vec2 → ℝ) (q : ℕ × ℝ)
    (h : max_by_key items f = some q) :
    q.1 < items.length ∧ ∃ a ∈ items, q.2 = f a := by
  refine max_by_key_foldl_spec items f items.enum none ?_ ?_ q h
  · intro p hp
    have h1 : p.1 < items.length := by
      have := List.fst_lt_add_of_mem_enumFrom (l := items) (n := 0) hp
      simpa using this
    have h2 : p.2 ∈ items := List.snd_mem_of_mem_enumFrom hp
    exact ⟨h1, h2⟩
  · intro r hr
    exact absurd hr (by simp)

theorem max_by_key_foldl_isSome (f : Vec2 → ℝ) :
    ∀ (l : List (ℕ × Vec2)) (acc : Option (ℕ × ℝ)),
      acc.isSome → (l.foldl (max_by_key_step f) acc).isSome := by
  intro l
  induction l with
  | nil => intro acc h; exact h
  | cons p rest ih =>
      intro acc h
      refine ih _ ?_
      unfold max_by_key_step
      cases acc with
      | none => simp at h
      | some q0 =>
          dsimp only
          split_ifs <;> simp

theorem max_by_key_ne_none (items : List Vec2) (f : Vec2 → ℝ)
    (h : items ≠ []) : max_by_key items f ≠ none := by
  cases items with
  | nil => exact absurd rfl h
  | cons a l =>
      unfold max_by_key
      rw [List.enum_cons]
      intro hc
      have := max_by_key_foldl_isSome f (l.enumFrom 1) (some (0, f a)) (by simp)
      rw [show List.foldl (max_by_key_step f) (some (0, f a)) (l.enumFrom 1)
            = List.foldl (max_by_key_step f) none ((0, a) :: l.enumFrom 1)
          from rfl] at this
      rw [hc] at this
      simp at this

/-- Embedding of `simplify_points`
(`src/arcs/src/algorithms/line_simplification.rs`).  The Rust function pushes
interior split points into a shared buffer; here the pushed segment is
returned.  The index returned by `max_by_key` over the interior slice
`points[1..len-1]` is remapped by `+1` before slicing, exactly as in the
source. -/
def simplify_points (points : List Vec2) (tolerance : ℝ) : List Vec2 :=
  if points.length < 2 then []
  else
    match hq : max_by_key ((points.drop 1).dropLast)
        (fun p =>
          (Line.mk points.headI points.getLastI).perpendicular_distance_to p)
      with
    | none => []
    | some q =>
      if tolerance < q.2 then
        simplify_points (points.take (q.1 + 1 + 1)) tolerance
          ++ points.getI (q.1 + 1)
            :: simplify_points (points.drop (q.1 + 1)) tolerance
      else []
termination_by points.length
decreasing_by
  · have hlen := (max_by_key_spec _ _ _ hq).1
    simp only [List.length_dropLast, List.length_drop] at hlen
    have h2 : min (q.1 + 1 + 1) points.length < points.length := by
      have : q.1 + 1 + 1 < points.length := by omega
      exact lt_of_le_of_lt (min_le_left _ _) (by omega)
    simpa [List.length_take] using h2
  · have hlen := (max_by_key_spec _ _ _ hq).1
    simp only [List.length_dropLast, List.length_drop] at hlen
    simp only [List.length_drop]
    omega

/-- Embedding of `simplify`
(`src/arcs/src/algorithms/line_simplification.rs`): inputs of at most two
points are returned unchanged; otherwise the first point, the interior
segment produced by `simplify_points`, and the last point. -/
def simplify (points : List Vec2) (tolerance : ℝ) : List Vec2 :=
  if points.length ≤ 2 then points
  else points.headI :: (simplify_points points tolerance ++ [points.getLastI])

theorem simplify_points_eq_nil (points : List Vec2) (tolerance : ℝ)
    (h2 : 2 ≤ points.length)
    (hsmall : ∀ p ∈ (points.drop 1).dropLast,
      (Line.mk points.headI points.getLastI).perpendicular_distance_to p
        < tolerance) :
    simplify_points points tolerance = [] := by
  rw [simplify_points]
  rw [if_neg (by omega)]
  split
  · rfl
  · rename_i q hq
    rw [if_neg ?_]
    obtain ⟨-, a, ha, hfa⟩ := max_by_key_spec _ _ _ hq
    have := hsmall a ha
    rw [hfa]
    exact not_lt_of_gt this

/-- C8 (amended): `simplify` returns inputs of at most two points unchanged;
whenever every interior point's distance — as computed by
`Line::perpendicular_distance_to` against the chord from the first to the
last point — is below the tolerance, it returns exactly the first and last
point; in particular, for any positive tolerance and any collinear list whose
first and last points are at least `100·f64::EPSILON` apart, it returns
exactly the first and last point. -/
theorem c8_simplify_amended :
    (∀ (points : List Vec2) (tolerance : ℝ), points.length ≤ 2 →
        simplify points tolerance = points) ∧
    (∀ (points : List Vec2) (tolerance : ℝ), 2 < points.length →
        (∀ p ∈ (points.drop 1).dropLast,
          (Line.mk points.headI points.getLastI).perpendicular_distance_to p
            < tolerance) →
        simplify points tolerance = [points.headI, points.getLastI]) ∧
    (∀ (points : List Vec2) (tolerance : ℝ), 2 < points.length →
        0 < tolerance →
        some_small_number ≤ (Line.mk points.headI points.getLastI).length →
        (∀ p ∈ points,
          Vec2.cross (points.getLastI - points.headI) (p - points.headI) = 0) →
        simplify points tolerance = [points.headI, points.getLastI]) := by
  have base : ∀ (points : List Vec2) (tolerance : ℝ), 2 < points.length →
      (∀ p ∈ (points.drop 1).dropLast,
        (Line.mk points.headI points.getLastI).perpendicular_distance_to p
          < tolerance) →
      simplify points tolerance = [points.headI, points.getLastI] := by
    intro points tolerance hlen hsmall
    unfold simplify
    rw [if_neg (by omega)]
    rw [simplify_points_eq_nil points tolerance (by omega) hsmall]
    rfl
  refine ⟨?_, base, ?_⟩
  · intro points tolerance h
    unfold simplify
    rw [if_pos h]
  · intro points tolerance hlen htol hbase hcross
    refine base points tolerance hlen ?_
    intro p hp
    have hpmem : p ∈ points :=
      List.drop_subset 1 points (List.dropLast_subset _ hp)
    have hc := hcross p hpmem
    have hcz : Vec2.cross (points.headI - p) (points.getLastI - p) = 0 := by
      simp only [Vec2.cross, Vec2.sub_def] at hc ⊢
      nlinarith [hc]
    unfold Line.perpendicular_distance_to
    dsimp only
    rw [if_neg ?_, hcz]
    · norm_num
      exact htol
    · rw [abs_of_nonneg (show (0 : ℝ)
          ≤ (Line.mk points.headI points.getLastI).length
          from Real.sqrt_nonneg _)]
      exact not_lt_of_ge hbase

/-- C8 (counterexample to the claim as stated): the points
`(0,0), (5,0), (0,0)` are all collinear (they lie on the x-axis), yet with
tolerance `1` the simplification returns the whole list, not just the first
and last point: the chord from the first to the last point is degenerate, so
`perpendicular_distance_to` falls back to point-to-start distance `5`, which
exceeds the tolerance and triggers a split. -/
theorem c8_collinear_duplicate_endpoints :
    simplify [⟨0, 0⟩, ⟨5, 0⟩, ⟨0, 0⟩] 1 = [⟨0, 0⟩, ⟨5, 0⟩, ⟨0, 0⟩] ∧
    (∀ p ∈ ([⟨0, 0⟩, ⟨5, 0⟩, ⟨0, 0⟩] : List Vec2), p.y = 0) ∧
    ((0 : ℝ) < 1) ∧
    simplify [⟨0, 0⟩, ⟨5, 0⟩, ⟨0, 0⟩] 1 ≠ [(⟨0, 0⟩ : Vec2), ⟨0, 0⟩] := by
  have hdist : (Line.mk (⟨0, 0⟩ : Vec2) ⟨0, 0⟩).perpendicular_distance_to
      ⟨5, 0⟩ = 5 := by
    have hz : (Line.mk (⟨0, 0⟩ : Vec2) ⟨0, 0⟩).length = 0 := by
      simp [Line.length, Line.displacement, Vec2.sub_def, Vec2.length]
    unfold Line.perpendicular_distance_to
    dsimp only
    rw [if_pos (by rw [hz]; norm_num [some_small_number, f64_epsilon])]
    simp only [Vec2.sub_def, Vec2.length]
    norm_num
    rw [show (25 : ℝ) = 5 ^ 2 by norm_num, Real.sqrt_sq (by norm_num)]
  have hsp2a : simplify_points [(⟨0, 0⟩ : Vec2), ⟨5, 0⟩] 1 = [] := by
    rw [simplify_points]
    rw [if_neg (by norm_num)]
    split
    · rfl
    · rename_i q hq
      exact absurd hq (by exact fun h => Option.noConfusion h)
  have hsp2b : simplify_points [(⟨5, 0⟩ : Vec2), ⟨0, 0⟩] 1 = [] := by
    rw [simplify_points]
    rw [if_neg (by norm_num)]
    split
    · rfl
    · rename_i q hq
      exact absurd hq (by exact fun h => Option.noConfusion h)
  have hmain : simplify_points [(⟨0, 0⟩ : Vec2), ⟨5, 0⟩, ⟨0, 0⟩] 1
      = [⟨5, 0⟩] := by
    rw [simplify_points]
    rw [if_neg (by norm_num)]
    split
    · rename_i hnone
      exact absurd hnone (by exact fun h => Option.noConfusion h)
    · rename_i q hq
      have h0 : some ((0 : ℕ),
          (Line.mk (⟨0, 0⟩ : Vec2) ⟨0, 0⟩).perpendicular_distance_to ⟨5, 0⟩)
          = some q := hq
      have hq2 := Option.some.inj h0
      rw [← hq2]
      rw [if_pos (by rw [hdist]; norm_num)]
      rw [show ([(⟨0, 0⟩ : Vec2), ⟨5, 0⟩, ⟨0, 0⟩].take (0 + 1 + 1))
            = [(⟨0, 0⟩ : Vec2), ⟨5, 0⟩] from rfl]
      rw [show ([(⟨0, 0⟩ : Vec2), ⟨5, 0⟩, ⟨0, 0⟩].drop (0 + 1))
            = [(⟨5, 0⟩ : Vec2), ⟨0, 0⟩] from rfl]
      rw [hsp2a, hsp2b]
      rfl
  have hfull : simplify [(⟨0, 0⟩ : Vec2), ⟨5, 0⟩, ⟨0, 0⟩] 1
      = [⟨0, 0⟩, ⟨5, 0⟩, ⟨0, 0⟩] := by
    unfold simplify
    rw [if_neg (by norm_num)]
    rw [hmain]
    rfl
  refine ⟨hfull, ?_, by norm_num, ?_⟩
  · intro p hp
    simp only [List.mem_cons, List.not_mem_nil, or_false] at hp
    rcases hp with h | h | h <;> rw [h]
  · rw [hfull]
    intro h
    have := congrArg List.length h
    simp at this

/-- Witness for C8: a two-point list is returned unchanged, and the collinear
points `(0,0), (1,0), (2,0)` with tolerance `1` collapse to the first and last
point. -/
theorem c8_witness :
    simplify [(⟨0, 0⟩ : Vec2), ⟨1, 1⟩] 1 = [(⟨0, 0⟩ : Vec2), ⟨1, 1⟩] ∧
    simplify [(⟨0, 0⟩ : Vec2), ⟨1, 0⟩, ⟨2, 0⟩] 1
      = [([(⟨0, 0⟩ : Vec2), ⟨1, 0⟩, ⟨2, 0⟩] : List Vec2).headI,
         ([(⟨0, 0⟩ : Vec2), ⟨1, 0⟩, ⟨2, 0⟩] : List Vec2).getLastI] := by
  constructor
  · exact c8_simplify_amended.1 _ 1 (by norm_num)
  · refine c8_simplify_amended.2.2 _ 1 (by norm_num) (by norm_num) ?_ ?_
    · have hchord : (Line.mk ((⟨0, 0⟩ : Vec2)) ((⟨2, 0⟩ : Vec2))).length
          = 2 := by
        simp only [Line.length, Line.displacement, Vec2.sub_def, Vec2.length]
        norm_num
        rw [show (4 : ℝ) = 2 ^ 2 by norm_num, Real.sqrt_sq (by norm_num)]
      show some_small_number ≤ (Line.mk (⟨0, 0⟩ : Vec2) (⟨2, 0⟩ : Vec2)).length
      rw [hchord]
      norm_num [some_small_number, f64_epsilon]
    · intro p hp
      simp only [List.mem_cons, List.not_mem_nil, or_false] at hp
      have hH : ([(⟨0, 0⟩ : Vec2), ⟨1, 0⟩, ⟨2, 0⟩] : List Vec2).headI
          = ⟨0, 0⟩ := rfl
      have hL : ([(⟨0, 0⟩ : Vec2), ⟨1, 0⟩, ⟨2, 0⟩] : List Vec2).getLastI
          = ⟨2, 0⟩ := rfl
      rcases hp with h | h | h <;>
        · rw [h, hH, hL]; simp [Vec2.cross, Vec2.sub_def]

/-- Embedding of the `(steps, delta)` computation in `impl Approximate for
Arc` (`src/core/src/algorithms/approximate.rs`): one segment when the
tolerance is non-positive or at least the radius; otherwise θ from the
sagitta formula, the raw segment count `sweep/θ` clamped below by `2`, a step
of `sweep / count`, and `count.ceil().abs() as usize` steps. -/
def Arc.approx_params (arc : Arc) (tolerance : ℝ) : ℕ × ℝ :=
  if tolerance ≤ 0 ∨ arc.radius ≤ tolerance then (1, arc.sweep_angle)
  else
    let cos_theta_on_two := 1 - tolerance / arc.radius
    let theta := Real.arccos cos_theta_on_two * 2
    let count := arc.sweep_angle / theta
    let count2 := max count 2
    ((Int.ceil count2).natAbs, arc.sweep_angle / count2)

/-- Embedding of the `ApproximatedArc` iterator collected into a list: it
yields `point_at(i * step_size)` for `i = 0, 1, ..., steps` (the iterator
stops once `i > steps`), hence `steps + 1` points. -/
def Arc.approximate (arc : Arc) (tolerance : ℝ) : List Vec2 :=
  (List.range ((arc.approx_params tolerance).1 + 1)).map
    (fun i => arc.point_at ((i : ℝ) * (arc.approx_params tolerance).2))

/-- C6 (failing evaluation): for the arc of radius `2` about the origin with
start angle `0` and sweep `3π/2`, at tolerance `1` the sagitta formula gives
`θ = 2·arccos(1/2) = 2π/3` and raw segment count `9/4`; the code steps by
`sweep/(9/4) = 2π/3` yet iterates `⌈9/4⌉ = 3` steps, so its last yielded
point sits at angle `2π` — the arc's start `(2,0)`, not its end `(0,-2)`: the
approximation overshoots the end of the arc and its last point differs from
`arc.end()`. -/
theorem c6_approximate_overshoots_end :
    ((⟨⟨0, 0⟩, 2, 0, 3 * (Real.pi / 2)⟩ : Arc).approximate 1).getLast?
        = some ⟨2, 0⟩ ∧
    ((⟨⟨0, 0⟩, 2, 0, 3 * (Real.pi / 2)⟩ : Arc).approximate 1).head?
        = some (Arc.start ⟨⟨0, 0⟩, 2, 0, 3 * (Real.pi / 2)⟩) ∧
    Arc.end_point ⟨⟨0, 0⟩, 2, 0, 3 * (Real.pi / 2)⟩ = ⟨0, -2⟩ ∧
    ((⟨⟨0, 0⟩, 2, 0, 3 * (Real.pi / 2)⟩ : Arc).approximate 1).getLast?
        ≠ some (Arc.end_point ⟨⟨0, 0⟩, 2, 0, 3 * (Real.pi / 2)⟩) := by
  have hpi := Real.pi_pos
  have hpine := Real.pi_ne_zero
  have harccos : Real.arccos (1 - 1 / (2 : ℝ)) = Real.pi / 3 := by
    rw [show (1 - 1 / (2 : ℝ)) = Real.cos (Real.pi / 3) by
      rw [Real.cos_pi_div_three]; norm_num]
    exact Real.arccos_cos (by positivity) (by linarith)
  have hparams : (⟨⟨0, 0⟩, 2, 0, 3 * (Real.pi / 2)⟩ : Arc).approx_params 1
      = (3, 2 * Real.pi / 3) := by
    unfold Arc.approx_params
    rw [if_neg (by push_neg; norm_num)]
    dsimp only
    rw [harccos]
    rw [show 3 * (Real.pi / 2) / (Real.pi / 3 * 2) = 9 / 4 by
      field_simp; ring]
    rw [max_eq_left (by norm_num : (2 : ℝ) ≤ 9 / 4)]
    rw [show ((⌈(9 / 4 : ℝ)⌉).natAbs) = 3 by
      rw [show ⌈(9 / 4 : ℝ)⌉ = 3 by rw [Int.ceil_eq_iff] <;> norm_num]
      rfl]
    rw [show 3 * (Real.pi / 2) / (9 / 4 : ℝ) = 2 * Real.pi / 3 by
      field_simp; ring]
  have hlist : (⟨⟨0, 0⟩, 2, 0, 3 * (Real.pi / 2)⟩ : Arc).approximate 1
      = [(⟨⟨0, 0⟩, 2, 0, 3 * (Real.pi / 2)⟩ : Arc).point_at
            ((0 : ℕ) * (2 * Real.pi / 3)),
         (⟨⟨0, 0⟩, 2, 0, 3 * (Real.pi / 2)⟩ : Arc).point_at
            ((1 : ℕ) * (2 * Real.pi / 3)),
         (⟨⟨0, 0⟩, 2, 0, 3 * (Real.pi / 2)⟩ : Arc).point_at
            ((2 : ℕ) * (2 * Real.pi / 3)),
         (⟨⟨0, 0⟩, 2, 0, 3 * (Real.pi / 2)⟩ : Arc).point_at
            ((3 : ℕ) * (2 * Real.pi / 3))] := by
    unfold Arc.approximate
    rw [hparams]
    rfl
  have hlast : (⟨⟨0, 0⟩, 2, 0, 3 * (Real.pi / 2)⟩ : Arc).point_at
      ((3 : ℕ) * (2 * Real.pi / 3)) = ⟨2, 0⟩ := by
    unfold Arc.point_at
    rw [show (0 : ℝ) + (3 : ℕ) * (2 * Real.pi / 3) = 2 * Real.pi by
      push_cast; ring]
    rw [Real.cos_two_pi, Real.sin_two_pi]
    simp [Vec2.add_def]
  have hfirst : (⟨⟨0, 0⟩, 2, 0, 3 * (Real.pi / 2)⟩ : Arc).point_at
      ((0 : ℕ) * (2 * Real.pi / 3))
      = Arc.start ⟨⟨0, 0⟩, 2, 0, 3 * (Real.pi / 2)⟩ := by
    unfold Arc.start
    rw [show ((0 : ℕ) : ℝ) * (2 * Real.pi / 3) = 0 by push_cast; ring]
  have hend : Arc.end_point ⟨⟨0, 0⟩, 2, 0, 3 * (Real.pi / 2)⟩ = ⟨0, -2⟩ := by
    unfold Arc.end_point Arc.point_at
    rw [show (0 : ℝ) + 3 * (Real.pi / 2) = Real.pi + Real.pi / 2 by ring]
    rw [Real.cos_add, Real.sin_add, Real.cos_pi, Real.sin_pi,
      Real.cos_pi_div_two, Real.sin_pi_div_two]
    simp [Vec2.add_def]
  refine ⟨?_, ?_, hend, ?_⟩
  · rw [hlist]
    simp only [List.getLast?, hlast]
    rfl
  · rw [hlist]
    simp only [List.head?, hfirst]
  · rw [hlist, hend]
    simp only [List.getLast?]
    rw [hlast]
    intro h
    have h2 := Option.some.inj h
    have := congrArg Vec2.x h2
    norm_num at this

/-- Embedding of `euclid::approxeq::ApproxEq::approx_epsilon()` for `f64`,
`1.0e-6`; `a.approx_eq(&b)` is `|a - b| < 1.0e-6`. -/
def approx_epsilon : ℝ := 1 / 1000000

/-- Embedding of `Closest` (`src/core/src/algorithms/closest_point.rs`). -/
inductive Closest where
  | infinite
  | one (p : Vec2)
  | many (ps : List Vec2)

/-- Embedding of the local `to_start` of `impl ClosestPoint for Arc`: the
distance from the arc's start point to the ideal (radially projected)
closest point. -/
def Arc.to_start_dist (arc : Arc) (target : Vec2) : ℝ :=
  (arc.start
    - (arc.centre + ((target - arc.centre).normalize).smul arc.radius)).length

/-- Embedding of the local `to_end` of `impl ClosestPoint for Arc`. -/
def Arc.to_end_dist (arc : Arc) (target : Vec2) : ℝ :=
  (arc.end_point
    - (arc.centre + ((target - arc.centre).normalize).smul arc.radius)).length

open Classical in
/-- Embedding of `impl ClosestPoint for Arc`
(`src/core/src/algorithms/closest_point.rs`). -/
def Arc.closest_point (arc : Arc) (target : Vec2) : Closest :=
  let radial := target - arc.centre
  if |radial.length - 0| < approx_epsilon then Closest.infinite
  else
    let angle_of_closest_point := radial.angle_from_x_axis
    let ideal_closest_point := arc.centre + radial.normalize.smul arc.radius
    if arc.contains_angle angle_of_closest_point then
      Closest.one ideal_closest_point
    else
      if |arc.to_start_dist target - arc.to_end_dist target| < approx_epsilon
        then Closest.many [arc.start, arc.end_point]
      else if arc.to_start_dist target < arc.to_end_dist target then
        Closest.one arc.start
      else Closest.one arc.end_point

theorem Vec2.ext_of (a b : Vec2) (hx : a.x = b.x) (hy : a.y = b.y) :
    a = b := by
  cases a
  cases b
  simp_all

theorem Vec2.add_sub_add (c v w : Vec2) : (c + v) - (c + w) = v - w := by
  refine Vec2.ext_of _ _ ?_ ?_ <;>
    simp only [Vec2.add_def, Vec2.sub_def] <;> ring

theorem Vec2.length_nonneg (v : Vec2) : 0 ≤ v.length := Real.sqrt_nonneg _

theorem Vec2.length_mul_self (v : Vec2) :
    v.length * v.length = v.x * v.x + v.y * v.y :=
  Real.mul_self_sqrt
    (by nlinarith [mul_self_nonneg v.x, mul_self_nonneg v.y])

theorem Vec2.length_lt_length_iff (v w : Vec2) :
    v.length < w.length ↔
      v.x * v.x + v.y * v.y < w.x * w.x + w.y * w.y := by
  unfold Vec2.length
  rw [Real.sqrt_lt_sqrt_iff
    (by nlinarith [mul_self_nonneg v.x, mul_self_nonneg v.y])]

set_option maxHeartbeats 1600000 in
/-- Comparing the two endpoint distances measured from the radial projection
`(u.x/d·r, u.y/d·r)` of the target orders them the same way as the distances
measured from the target `u` itself, for any two points `s`, `e` on the
circle of radius `r` (all relative to the centre). -/
theorem nearer_endpoint_transfer (u s e : Vec2) (d r : ℝ)
    (hd2 : u.x * u.x + u.y * u.y = d * d) (hd0 : 0 < d) (hr : 0 < r)
    (hs : s.x * s.x + s.y * s.y = r * r)
    (he : e.x * e.x + e.y * e.y = r * r) :
    ((s - ⟨u.x / d * r, u.y / d * r⟩).length
        < (e - ⟨u.x / d * r, u.y / d * r⟩).length
      ↔ (u - s).length < (u - e).length) := by
  rw [Vec2.length_lt_length_iff, Vec2.length_lt_length_iff]
  simp only [Vec2.sub_def]
  have hd : d ≠ 0 := ne_of_gt hd0
  set px := u.x / d * r with hpxdef
  set py := u.y / d * r with hpydef
  have hsp : (s.x * px + s.y * py) * d = (u.x * s.x + u.y * s.y) * r := by
    rw [hpxdef, hpydef]
    field_simp
    ring
  have hep : (e.x * px + e.y * py) * d = (u.x * e.x + u.y * e.y) * r := by
    rw [hpxdef, hpydef]
    field_simp
    ring
  have hpp : px * px + py * py = r * r := by
    rw [hpxdef, hpydef]
    rw [show u.x / d * r * (u.x / d * r) + u.y / d * r * (u.y / d * r)
        = (u.x * u.x + u.y * u.y) * (r * r) / (d * d) by
      field_simp
      ring]
    rw [hd2]
    field_simp
  constructor
  · intro h
    have h1 : e.x * px + e.y * py < s.x * px + s.y * py := by
      nlinarith [hs, he, hpp]
    have h1d := mul_lt_mul_of_pos_right h1 hd0
    rw [hsp, hep] at h1d
    have h3 : u.x * e.x + u.y * e.y < u.x * s.x + u.y * s.y :=
      lt_of_mul_lt_mul_right h1d hr.le
    nlinarith [h3, hs, he]
  · intro h
    have h3 : u.x * e.x + u.y * e.y < u.x * s.x + u.y * s.y := by
      nlinarith [hs, he]
    have h1d : (u.x * e.x + u.y * e.y) * r < (u.x * s.x + u.y * s.y) * r :=
      mul_lt_mul_of_pos_right h3 hr
    rw [← hsp, ← hep] at h1d
    have h1 : e.x * px + e.y * py < s.x * px + s.y * py :=
      lt_of_mul_lt_mul_right h1d hd0.le
    nlinarith [h1, hs, he, hpp]

theorem Vec2.add_sub_cancel_left (a b : Vec2) : (a + b) - a = b := by
  refine Vec2.ext_of _ _ ?_ ?_ <;>
    · simp only [Vec2.add_def, Vec2.sub_def]
      ring

theorem Vec2.sub_add_eq_sub_sub (a c w : Vec2) : a - (c + w) = (a - c) - w := by
  refine Vec2.ext_of _ _ ?_ ?_ <;>
    · simp only [Vec2.add_def, Vec2.sub_def]
      ring

theorem Vec2.sub_sub_sub_cancel (a b c : Vec2) : (a - c) - (b - c) = a - b := by
  refine Vec2.ext_of _ _ ?_ ?_ <;>
    · simp only [Vec2.sub_def]
      ring

theorem Arc.start_sub_centre (arc : Arc) :
    arc.start - arc.centre
      = ⟨arc.radius * Real.cos arc.start_angle,
         arc.radius * Real.sin arc.start_angle⟩ := by
  unfold Arc.start Arc.point_at
  rw [Vec2.add_sub_cancel_left]
  rw [add_zero]

theorem Arc.end_sub_centre (arc : Arc) :
    arc.end_point - arc.centre
      = ⟨arc.radius * Real.cos (arc.start_angle + arc.sweep_angle),
         arc.radius * Real.sin (arc.start_angle + arc.sweep_angle)⟩ := by
  unfold Arc.end_point Arc.point_at
  rw [Vec2.add_sub_cancel_left]

theorem circle_point_sq (r θ : ℝ) :
    (r * Real.cos θ) * (r * Real.cos θ) + (r * Real.sin θ) * (r * Real.sin θ)
      = r * r := by
  nlinarith [Real.sin_sq_add_cos_sq θ]

theorem normalize_smul_length (u : Vec2) (r : ℝ) (hu : u.length ≠ 0)
    (hr : 0 ≤ r) : (u.normalize.smul r).length = r := by
  have hL2 := Vec2.length_mul_self u
  set L := u.length with hL
  rw [show u.normalize.smul r = (⟨u.x / L * r, u.y / L * r⟩ : Vec2) from rfl]
  rw [show (⟨u.x / L * r, u.y / L * r⟩ : Vec2).length
      = Real.sqrt ((u.x / L * r) * (u.x / L * r)
          + (u.y / L * r) * (u.y / L * r)) from rfl]
  rw [show (u.x / L * r) * (u.x / L * r) + (u.y / L * r) * (u.y / L * r)
      = (u.x * u.x + u.y * u.y) * (r * r) / (L * L) by
    field_simp
    ring]
  rw [← hL2]
  rw [show L * L * (r * r) / (L * L) = r * r by field_simp]
  exact Real.sqrt_mul_self hr

set_option maxHeartbeats 1600000 in
/-- C5 (amended): for every arc of positive radius and every target,
`closest_point` returns `Infinite` when the target lies within `1e-6` of the
centre (in particular when it coincides with it); when the target is at least
`1e-6` from the centre and the angle of the ray from centre to target lies
within the arc's span, it returns the radial projection of the target onto
the circle (a point at distance `radius` from the centre); otherwise it
returns both endpoints when their distances to the radial projection differ
by less than `1e-6` — e.g. a semicircle queried from directly below its
centre returns both endpoints — and otherwise the single endpoint that is
strictly nearer to the target. -/
theorem c5_closest_point_amended :
    (∀ (arc : Arc) (target : Vec2), 0 < arc.radius →
      (((target - arc.centre).length < approx_epsilon →
          arc.closest_point target = Closest.infinite) ∧
       (approx_epsilon ≤ (target - arc.centre).length →
          arc.contains_angle ((target - arc.centre).angle_from_x_axis) →
          arc.closest_point target
            = Closest.one (arc.centre
                + ((target - arc.centre).normalize).smul arc.radius) ∧
          ((arc.centre + ((target - arc.centre).normalize).smul arc.radius)
              - arc.centre).length = arc.radius) ∧
       (approx_epsilon ≤ (target - arc.centre).length →
          ¬ arc.contains_angle ((target - arc.centre).angle_from_x_axis) →
          ((|arc.to_start_dist target - arc.to_end_dist target|
                < approx_epsilon →
              arc.closest_point target
                = Closest.many [arc.start, arc.end_point]) ∧
           (approx_epsilon
                ≤ |arc.to_start_dist target - arc.to_end_dist target| →
              arc.to_start_dist target < arc.to_end_dist target →
              arc.closest_point target = Closest.one arc.start ∧
              (target - arc.start).length
                < (target - arc.end_point).length) ∧
           (approx_epsilon
                ≤ |arc.to_start_dist target - arc.to_end_dist target| →
              arc.to_end_dist target < arc.to_start_dist target →
              arc.closest_point target = Closest.one arc.end_point ∧
              (target - arc.end_point).length
                < (target - arc.start).length))))) ∧
    ((⟨⟨0, 0⟩, 10, 0, Real.pi⟩ : Arc).closest_point ⟨0, -10⟩
        = Closest.many [Arc.start ⟨⟨0, 0⟩, 10, 0, Real.pi⟩,
            Arc.end_point ⟨⟨0, 0⟩, 10, 0, Real.pi⟩] ∧
     ((⟨0, -10⟩ : Vec2) - Arc.start ⟨⟨0, 0⟩, 10, 0, Real.pi⟩).length
        = ((⟨0, -10⟩ : Vec2)
            - Arc.end_point ⟨⟨0, 0⟩, 10, 0, Real.pi⟩).length) := by
  constructor
  · intro arc target hr
    have habs : |(target - arc.centre).length - 0|
        = (target - arc.centre).length := by
      rw [sub_zero, abs_of_nonneg (Vec2.length_nonneg _)]
    refine ⟨?_, ?_, ?_⟩
    · intro h
      unfold Arc.closest_point
      rw [if_pos (by rw [habs]; exact h)]
    · intro hge hcont
      have hne : ¬ |(target - arc.centre).length - 0| < approx_epsilon := by
        rw [habs]
        exact not_lt.mpr hge
      have hL0 : (target - arc.centre).length ≠ 0 := by
        intro h0
        rw [h0] at hge
        norm_num [approx_epsilon] at hge
      constructor
      · unfold Arc.closest_point
        rw [if_neg hne]
        dsimp only
        rw [if_pos hcont]
      · rw [Vec2.add_sub_cancel_left]
        exact normalize_smul_length _ _ hL0 hr.le
    · intro hge hnc
      have hne : ¬ |(target - arc.centre).length - 0| < approx_epsilon := by
        rw [habs]
        exact not_lt.mpr hge
      have hL0 : 0 < (target - arc.centre).length :=
        lt_of_lt_of_le (by norm_num [approx_epsilon]) hge
      have hsvec := Arc.start_sub_centre arc
      have hevec := Arc.end_sub_centre arc
      have hnorm : ((target - arc.centre).normalize).smul arc.radius
          = (⟨(target - arc.centre).x / (target - arc.centre).length
                * arc.radius,
              (target - arc.centre).y / (target - arc.centre).length
                * arc.radius⟩ : Vec2) := rfl
      have htos : arc.to_start_dist target
          = ((arc.start - arc.centre)
              - (⟨(target - arc.centre).x / (target - arc.centre).length
                    * arc.radius,
                  (target - arc.centre).y / (target - arc.centre).length
                    * arc.radius⟩ : Vec2)).length := by
        unfold Arc.to_start_dist
        rw [Vec2.sub_add_eq_sub_sub, hnorm]
      have htoe : arc.to_end_dist target
          = ((arc.end_point - arc.centre)
              - (⟨(target - arc.centre).x / (target - arc.centre).length
                    * arc.radius,
                  (target - arc.centre).y / (target - arc.centre).length
                    * arc.radius⟩ : Vec2)).length := by
        unfold Arc.to_end_dist
        rw [Vec2.sub_add_eq_sub_sub, hnorm]
      have hts : (target - arc.centre) - (arc.start - arc.centre)
          = target - arc.start := Vec2.sub_sub_sub_cancel _ _ _
      have hte : (target - arc.centre) - (arc.end_point - arc.centre)
          = target - arc.end_point := Vec2.sub_sub_sub_cancel _ _ _
      have hkey := nearer_endpoint_transfer (target - arc.centre)
          ⟨arc.radius * Real.cos arc.start_angle,
           arc.radius * Real.sin arc.start_angle⟩
          ⟨arc.radius * Real.cos (arc.start_angle + arc.sweep_angle),
           arc.radius * Real.sin (arc.start_angle + arc.sweep_angle)⟩
          ((target - arc.centre).length) arc.radius
          (Vec2.length_mul_self _).symm hL0 hr
          (by dsimp only; exact circle_point_sq _ _)
          (by dsimp only; exact circle_point_sq _ _)
      have hkey2 := nearer_endpoint_transfer (target - arc.centre)
          ⟨arc.radius * Real.cos (arc.start_angle + arc.sweep_angle),
           arc.radius * Real.sin (arc.start_angle + arc.sweep_angle)⟩
          ⟨arc.radius * Real.cos arc.start_angle,
           arc.radius * Real.sin arc.start_angle⟩
          ((target - arc.centre).length) arc.radius
          (Vec2.length_mul_self _).symm hL0 hr
          (by dsimp only; exact circle_point_sq _ _)
          (by dsimp only; exact circle_point_sq _ _)
      rw [← hsvec, ← hevec, hts, hte] at hkey
      rw [← hsvec, ← hevec, hts, hte] at hkey2
      have htrans : arc.to_start_dist target < arc.to_end_dist target
          ↔ (target - arc.start).length < (target - arc.end_point).length := by
        rw [htos, htoe]
        exact hkey
      have htrans2 : arc.to_end_dist target < arc.to_start_dist target
          ↔ (target - arc.end_point).length < (target - arc.start).length := by
        rw [htos, htoe]
        exact hkey2
      refine ⟨?_, ?_, ?_⟩
      · intro htie
        unfold Arc.closest_point
        rw [if_neg hne]
        dsimp only
        rw [if_neg hnc, if_pos htie]
      · intro hA hlt
        refine ⟨?_, htrans.mp hlt⟩
        unfold Arc.closest_point
        rw [if_neg hne]
        dsimp only
        rw [if_neg hnc, if_neg (not_lt.mpr hA), if_pos hlt]
      · intro hA hlt
        refine ⟨?_, htrans2.mp hlt⟩
        unfold Arc.closest_point
        rw [if_neg hne]
        dsimp only
        rw [if_neg hnc, if_neg (not_lt.mpr hA), if_neg (not_lt.mpr hlt.le)]
  · have hpi := Real.pi_pos
    have h1 : ((⟨0, -10⟩ : Vec2) - (⟨0, 0⟩ : Vec2)) = ⟨0, -10⟩ := by
      refine Vec2.ext_of _ _ ?_ ?_ <;> simp [Vec2.sub_def]
    have hlen : ((⟨0, -10⟩ : Vec2)).length = 10 := by
      unfold Vec2.length
      norm_num
      rw [show (100 : ℝ) = 10 ^ 2 by norm_num, Real.sqrt_sq (by norm_num)]
    have hstart : Arc.start ⟨⟨0, 0⟩, 10, 0, Real.pi⟩ = ⟨10, 0⟩ := by
      unfold Arc.start Arc.point_at
      refine Vec2.ext_of _ _ ?_ ?_ <;>
        simp [Vec2.add_def, Real.cos_zero, Real.sin_zero]
    have hend : Arc.end_point ⟨⟨0, 0⟩, 10, 0, Real.pi⟩ = ⟨-10, 0⟩ := by
      unfold Arc.end_point Arc.point_at
      refine Vec2.ext_of _ _ ?_ ?_ <;>
        simp [Vec2.add_def, Real.cos_pi, Real.sin_pi]
    have hangle : ((⟨0, -10⟩ : Vec2)).angle_from_x_axis = -(Real.pi / 2) := by
      unfold Vec2.angle_from_x_axis
      have h := arg_mk_neg_imag (r := 10) (by norm_num)
      norm_num at h ⊢
      exact h
    have hideal : (((⟨0, -10⟩ : Vec2)).normalize).smul 10 = ⟨0, -10⟩ := by
      unfold Vec2.normalize Vec2.smul
      rw [hlen]
      refine Vec2.ext_of _ _ ?_ ?_ <;> norm_num
    have htsd : Arc.to_start_dist ⟨⟨0, 0⟩, 10, 0, Real.pi⟩ ⟨0, -10⟩
        = Real.sqrt 200 := by
      unfold Arc.to_start_dist
      rw [h1, hideal, hstart]
      rw [show ((⟨0, 0⟩ : Vec2) + ⟨0, -10⟩) = (⟨0, -10⟩ : Vec2) by
        refine Vec2.ext_of _ _ ?_ ?_ <;> simp [Vec2.add_def]]
      rw [show ((⟨10, 0⟩ : Vec2) - ⟨0, -10⟩) = (⟨10, 10⟩ : Vec2) by
        refine Vec2.ext_of _ _ ?_ ?_ <;> simp [Vec2.sub_def]]
      unfold Vec2.length
      norm_num
    have hted : Arc.to_end_dist ⟨⟨0, 0⟩, 10, 0, Real.pi⟩ ⟨0, -10⟩
        = Real.sqrt 200 := by
      unfold Arc.to_end_dist
      rw [h1, hideal, hend]
      rw [show ((⟨0, 0⟩ : Vec2) + ⟨0, -10⟩) = (⟨0, -10⟩ : Vec2) by
        refine Vec2.ext_of _ _ ?_ ?_ <;> simp [Vec2.add_def]]
      rw [show ((⟨-10, 0⟩ : Vec2) - ⟨0, -10⟩) = (⟨-10, 10⟩ : Vec2) by
        refine Vec2.ext_of _ _ ?_ ?_ <;> simp [Vec2.sub_def]]
      unfold Vec2.length
      norm_num
    constructor
    · unfold Arc.closest_point
      rw [h1]
      rw [if_neg (by rw [hlen]; norm_num [approx_epsilon])]
      dsimp only
      rw [if_neg ?_]
      · rw [if_pos (by rw [htsd, hted]; norm_num [approx_epsilon])]
      · rw [hangle]
        unfold Arc.contains_angle Arc.end_angle
        dsimp only
        rw [if_pos (by nlinarith)]
        rintro ⟨hx, -⟩
        nlinarith
    · rw [hstart, hend]
      rw [show ((⟨0, -10⟩ : Vec2) - ⟨10, 0⟩) = (⟨-10, -10⟩ : Vec2) by
        refine Vec2.ext_of _ _ ?_ ?_ <;> simp [Vec2.sub_def]]
      rw [show ((⟨0, -10⟩ : Vec2) - ⟨-10, 0⟩) = (⟨10, -10⟩ : Vec2) by
        refine Vec2.ext_of _ _ ?_ ?_ <;> simp [Vec2.sub_def]]
      unfold Vec2.length
      norm_num

/-- C5 (counterexample to the claim as stated): the target `(1e-7, 0)` does
not coincide with the centre of the quarter-circle arc of radius `10`, and
the angle of the ray from centre to target (`0`) lies within the arc's span,
so the claim prescribes the radial projection; the code instead returns
`Infinite`, because the centre test is an epsilon comparison
(`|target - centre| < 1e-6`), not exact coincidence. -/
theorem c5_near_centre_counterexample :
    (⟨⟨0, 0⟩, 10, 0, Real.pi / 2⟩ : Arc).closest_point ⟨1 / 10 ^ 7, 0⟩
        = Closest.infinite ∧
    (⟨1 / 10 ^ 7, 0⟩ : Vec2) ≠ (⟨⟨0, 0⟩, 10, 0, Real.pi / 2⟩ : Arc).centre ∧
    (⟨⟨0, 0⟩, 10, 0, Real.pi / 2⟩ : Arc).contains_angle
      (((⟨1 / 10 ^ 7, 0⟩ : Vec2)
          - (⟨⟨0, 0⟩, 10, 0, Real.pi / 2⟩ : Arc).centre).angle_from_x_axis) ∧
    Closest.infinite
      ≠ Closest.one ((⟨⟨0, 0⟩, 10, 0, Real.pi / 2⟩ : Arc).centre
          + ((((⟨1 / 10 ^ 7, 0⟩ : Vec2)
              - (⟨⟨0, 0⟩, 10, 0, Real.pi / 2⟩ : Arc).centre)).normalize).smul
              ((⟨⟨0, 0⟩, 10, 0, Real.pi / 2⟩ : Arc).radius)) := by
  have hpi := Real.pi_pos
  have h1 : ((⟨1 / 10 ^ 7, 0⟩ : Vec2) - (⟨0, 0⟩ : Vec2))
      = ⟨1 / 10 ^ 7, 0⟩ := by
    refine Vec2.ext_of _ _ ?_ ?_ <;> simp [Vec2.sub_def]
  have hlen : ((⟨1 / 10 ^ 7, 0⟩ : Vec2)).length = 1 / 10 ^ 7 := by
    unfold Vec2.length
    dsimp only
    rw [show (1 / 10 ^ 7 : ℝ) * (1 / 10 ^ 7) + 0 * 0
        = (1 / 10 ^ 7 : ℝ) * (1 / 10 ^ 7) by ring]
    exact Real.sqrt_mul_self (by norm_num)
  have hangle : ((⟨1 / 10 ^ 7, 0⟩ : Vec2)).angle_from_x_axis = 0 := by
    unfold Vec2.angle_from_x_axis
    exact arg_mk_pos_real (by norm_num)
  refine ⟨?_, ?_, ?_, ?_⟩
  · unfold Arc.closest_point
    rw [h1]
    have hc : |(⟨1 / 10 ^ 7, 0⟩ : Vec2).length - 0| < approx_epsilon := by
      rw [hlen, sub_zero]
      rw [abs_of_nonneg (by norm_num : (0 : ℝ) ≤ 1 / 10 ^ 7)]
      norm_num [approx_epsilon]
    rw [if_pos hc]
  · intro h
    have := congrArg Vec2.x h
    norm_num at this
  · show (⟨⟨0, 0⟩, 10, 0, Real.pi / 2⟩ : Arc).contains_angle
      (((⟨1 / 10 ^ 7, 0⟩ : Vec2) - (⟨0, 0⟩ : Vec2)).angle_from_x_axis)
    rw [h1, hangle]
    unfold Arc.contains_angle Arc.end_angle
    dsimp only
    rw [if_pos (by nlinarith)]
    constructor
    · norm_num
    · nlinarith
  · intro h
    exact Closest.noConfusion h

/-- Witness for C5: the unit-radius arc about the origin queried at its own
centre returns `Infinite`. -/
theorem c5_witness :
    (⟨⟨0, 0⟩, 1, 0, 1⟩ : Arc).closest_point ⟨0, 0⟩ = Closest.infinite := by
  have h0 : ((⟨0, 0⟩ : Vec2) - (⟨0, 0⟩ : Vec2)).length < approx_epsilon := by
    rw [show ((⟨0, 0⟩ : Vec2) - ⟨0, 0⟩) = (⟨0, 0⟩ : Vec2) by
      refine Vec2.ext_of _ _ ?_ ?_ <;> simp [Vec2.sub_def]]
    unfold Vec2.length
    dsimp only
    rw [show (0 : ℝ) * 0 + 0 * 0 = 0 by ring, Real.sqrt_zero]
    norm_num [approx_epsilon]
  exact (c5_closest_point_amended.1 ⟨⟨0, 0⟩, 1, 0, 1⟩ ⟨0, 0⟩
    (by norm_num)).1 h0

namespace Ecs

/-- Embedding of `Arc::point_at` from `src/arcs/src/arc.rs`: that revision
destructures `angle.sin_cos()` — which returns `(sin, cos)` — as `(x, y)` and
builds `Vector::new(r * x, r * y)`, i.e. `centre + (r·sin, r·cos)`. -/
def point_at (arc : Arc) (angle : ℝ) : Vec2 :=
  arc.centre + ⟨arc.radius * Real.sin (arc.start_angle + angle),
                arc.radius * Real.cos (arc.start_angle + angle)⟩

/-- Embedding of `Arc::start` from `src/arcs/src/arc.rs`. -/
def start (arc : Arc) : Vec2 := point_at arc 0

/-- Embedding of `Arc::end` from `src/arcs/src/arc.rs`. -/
def end_point (arc : Arc) : Vec2 := point_at arc arc.sweep_angle

open Classical in
/-- Embedding of `impl Bounded for Arc`
(`src/arcs/src/algorithms/bounding_box.rs`, lines 137-165): start from the
box around the arc's start/end points, then for each contained axis-extremum
angle rebuild the box from one corner of the current box and the extremum
point (the first two steps keep `bottom_left`, the last two keep
`top_right`). -/
def arc_bounding_box (arc : Arc) : BoundingBox :=
  let bounds0 := BoundingBox.new (start arc) (end_point arc)
  let bounds1 :=
    if arc.contains_angle 0 then
      BoundingBox.new bounds0.bottom_left
        ⟨arc.centre.x + arc.radius, arc.centre.y⟩
    else bounds0
  let bounds2 :=
    if arc.contains_angle (Real.pi / 2) then
      BoundingBox.new bounds1.bottom_left
        ⟨arc.centre.x, arc.centre.y + arc.radius⟩
    else bounds1
  let bounds3 :=
    if arc.contains_angle Real.pi then
      BoundingBox.new bounds2.top_right
        ⟨arc.centre.x - arc.radius, arc.centre.y⟩
    else bounds2
  let bounds4 :=
    if arc.contains_angle (3 * (Real.pi / 2)) then
      BoundingBox.new bounds3.top_right
        ⟨arc.centre.x, arc.centre.y - arc.radius⟩
    else bounds3
  bounds4

/-- Embedding of `SpatialEntity`
(`src/arcs/src/components/spatial_entity.rs`); a `specs::Entity` is modelled
by its raw index, a natural number. -/
structure SpatialEntity where
  bounds : BoundingBox
  entity : ℕ

/-- Model of the external `aabb_quadtree::QuadTree` as observed through the
operations `Space` uses: a finite map from `ItemId` — a monotonically
increasing counter whose ids are never reused — to the stored elements, plus
the tree's world rect.  The `f64 → f32` conversion in `aabb()` is modelled as
exact. -/
structure QuadTree where
  world : BoundingBox
  elems : List (ℕ × SpatialEntity)
  next_id : ℕ

/-- Model of `euclid::Rect::is_empty` for the stored rects: a rect of
non-positive width or height. -/
def rect_is_empty (b : BoundingBox) : Prop := b.width ≤ 0 ∨ b.height ≤ 0

/-- Model of `euclid::Rect::contains_rect`: an empty rect is contained in
anything; otherwise componentwise containment of extents. -/
def rect_contains_rect (a b : BoundingBox) : Prop :=
  rect_is_empty b ∨
    (a.min_x ≤ b.min_x ∧ b.max_x ≤ a.max_x ∧
      a.min_y ≤ b.min_y ∧ b.max_y ≤ a.max_y)

/-- Model of `euclid::Rect::intersects`: strict overlap on both axes. -/
def rect_intersects (a b : BoundingBox) : Prop :=
  a.min_x < b.max_x ∧ b.min_x < a.max_x ∧ a.min_y < b.max_y ∧ b.min_y < a.max_y

/-- Model of `QuadTree::new`: an empty tree over the given world rect, with
the id counter at zero. -/
def QuadTree.fresh (world : BoundingBox) : QuadTree := ⟨world, [], 0⟩

/-- Model of `QuadTree::insert`: allocate a fresh id and store the element
(`Space` grows the world bound before any insert that would not fit, so the
insertion the source unwraps always succeeds). -/
def QuadTree.insert (t : QuadTree) (sp : SpatialEntity) : ℕ × QuadTree :=
  (t.next_id, ⟨t.world, (t.next_id, sp) :: t.elems, t.next_id + 1⟩)

/-- Model of `QuadTree::remove`: drop the record with the given id, a no-op
when absent. -/
def QuadTree.remove (t : QuadTree) (id : ℕ) : QuadTree :=
  ⟨t.world, t.elems.filter (fun e => e.1 != id), t.next_id⟩

open Classical in
/-- Model of `QuadTree::query`: every stored element whose box intersects the
query rect. -/
def QuadTree.query (t : QuadTree) (region : BoundingBox) :
    List SpatialEntity :=
  (t.elems.filter (fun e => decide (rect_intersects e.2.bounds region))).map
    (fun e => e.2)

/-- Embedding of `Space::WORLD_RADIUS`. -/
def world_radius : ℝ := 1000000

/-- Embedding of `Space` (`src/arcs/src/components/spatial_entity.rs`): the
quadtree plus the `Entity → ItemId` side table (a `HashMap`, modelled as an
association list with unique keys). -/
structure Space where
  quadtree : QuadTree
  ids : List (ℕ × ℕ)

/-- Embedding of `Space::default`. -/
def Space.default : Space :=
  ⟨QuadTree.fresh (BoundingBox.new ⟨-world_radius, -world_radius⟩
      ⟨world_radius, world_radius⟩), []⟩

/-- Embedding of `Space::insert_entity`. -/
def Space.insert_entity (s : Space) (sp : SpatialEntity) : ℕ × Space :=
  ((s.quadtree.insert sp).1, ⟨(s.quadtree.insert sp).2, s.ids⟩)

/-- Embedding of `Space::iter`. -/
def Space.iter_entities (s : Space) : List SpatialEntity :=
  s.quadtree.elems.map (fun e => e.2)

/-- Embedding of `Space::clear`: a fresh tree re-using the old world bound,
and a cleared side table. -/
def Space.clear (s : Space) : Space := ⟨QuadTree.fresh s.quadtree.world, []⟩

/-- Model of `HashMap::insert` on the side table (overwrites the key). -/
def map_insert (m : List (ℕ × ℕ)) (k v : ℕ) : List (ℕ × ℕ) :=
  (k, v) :: m.filter (fun e => e.1 != k)

/-- Embedding of `HashMap::entry(k).or_insert(v)`: inserts only when the key
is absent, and otherwise leaves the existing entry untouched. -/
def or_insert (m : List (ℕ × ℕ)) (k v : ℕ) : List (ℕ × ℕ) :=
  if (m.lookup k).isSome then m else (k, v) :: m

/-- Embedding of `Space::resize` (its panic branch for a non-growing size is
not taken on the paths `modify` exercises): collect the live records, clear,
rebuild the tree over the new size, and reinsert everything, recording the
fresh ids with `HashMap::insert`. -/
def Space.resize (s : Space) (size : BoundingBox) : Space :=
  let spatial_entities := s.iter_entities
  let s1 := s.clear
  let s2 : Space := ⟨QuadTree.fresh size, s1.ids⟩
  spatial_entities.foldl
    (fun acc sp =>
      ⟨(acc.insert_entity sp).2.quadtree,
        map_insert (acc.insert_entity sp).2.ids sp.entity
          (acc.insert_entity sp).1⟩)
    s2

/-- Embedding of `Space::modify_entity`: look the stale item id up, remove it
from the tree, and insert the new record, returning the new id. -/
def Space.modify_entity (s : Space) (sp : SpatialEntity) : ℕ × Space :=
  let item_id := (s.ids.lookup sp.entity).getD 0
  let s1 : Space := ⟨s.quadtree.remove item_id, s.ids⟩
  s1.insert_entity sp

open Classical in
/-- Embedding of `Space::modify`: grow the world if the incoming bounds do
not fit, then insert (entity unknown) or replace (entity known) the tree
record, and finally update the side table with
`ids.entry(entity).or_insert(id)` — which never overwrites an existing
entry. -/
def Space.modify (s : Space) (sp : SpatialEntity) : Space :=
  let s0 :=
    if ¬ rect_contains_rect s.quadtree.world sp.bounds then s.resize sp.bounds
    else s
  let r :=
    if (s0.ids.lookup sp.entity).isSome then s0.modify_entity sp
    else s0.insert_entity sp
  ⟨r.2.quadtree, or_insert r.2.ids sp.entity r.1⟩

/-- Embedding of `Space::remove`: when the entity is known, remove its
recorded item id from the tree and delete the side-table entry. -/
def Space.remove (s : Space) (entity : ℕ) : Space :=
  if (s.ids.lookup entity).isSome then
    ⟨s.quadtree.remove ((s.ids.lookup entity).getD 0),
      s.ids.filter (fun e => e.1 != entity)⟩
  else s

/-- Embedding of `Space::remove_by_id`: find the first side-table entry whose
entity has the given raw id and remove that entity. -/
def Space.remove_by_id (s : Space) (id : ℕ) : Space :=
  match (s.ids.filter (fun e => e.1 == id)).head? with
  | some e => s.remove e.1
  | none => s

/-- Embedding of `Space::query_region`. -/
def Space.query_region (s : Space) (region : BoundingBox) :
    List SpatialEntity :=
  s.quadtree.query region

/-- Embedding of `Space::query_point`: `query_region` over the bounding box
of the full-circle arc `from_centre_radius(point, radius, 0, 2π)`. -/
def Space.query_point (s : Space) (point : Vec2) (radius : ℝ) :
    List SpatialEntity :=
  s.query_region (arc_bounding_box ⟨point, radius, 0, 2 * Real.pi⟩)

end Ecs

theorem full_circle_contains (p : Vec2) (r θ : ℝ) (h0 : 0 ≤ θ)
    (h2 : θ ≤ 2 * Real.pi) :
    Arc.contains_angle ⟨p, r, 0, 2 * Real.pi⟩ θ := by
  have hpi := Real.pi_pos
  unfold Arc.contains_angle Arc.end_angle
  dsimp only
  rw [if_pos (by nlinarith)]
  exact ⟨by simpa using h0, by simpa using h2⟩

theorem full_circle_box (p : Vec2) (r : ℝ) (hr : 0 < r) :
    Ecs.arc_bounding_box ⟨p, r, 0, 2 * Real.pi⟩
      = BoundingBox.mk ⟨p.x, p.y - r⟩ ⟨p.x, p.y + r⟩ := by
  have hpi := Real.pi_pos
  have hstart : Ecs.start ⟨p, r, 0, 2 * Real.pi⟩ = ⟨p.x, p.y + r⟩ := by
    unfold Ecs.start Ecs.point_at
    refine Vec2.ext_of _ _ ?_ ?_ <;>
      simp [Vec2.add_def, Real.sin_zero, Real.cos_zero]
  have hend : Ecs.end_point ⟨p, r, 0, 2 * Real.pi⟩ = ⟨p.x, p.y + r⟩ := by
    unfold Ecs.end_point Ecs.point_at
    refine Vec2.ext_of _ _ ?_ ?_ <;>
      simp [Vec2.add_def, Real.sin_two_pi, Real.cos_two_pi]
  have hc0 := full_circle_contains p r 0 le_rfl (by nlinarith)
  have hc1 := full_circle_contains p r (Real.pi / 2) (by positivity)
    (by nlinarith)
  have hc2 := full_circle_contains p r Real.pi (by positivity) (by nlinarith)
  have hc3 := full_circle_contains p r (3 * (Real.pi / 2)) (by positivity)
    (by nlinarith)
  have e0 : BoundingBox.new ⟨p.x, p.y + r⟩ ⟨p.x, p.y + r⟩
      = BoundingBox.mk ⟨p.x, p.y + r⟩ ⟨p.x, p.y + r⟩ := by
    unfold BoundingBox.new
    dsimp only
    rw [min_self, min_self, max_self, max_self]
  have e1 : BoundingBox.new ⟨p.x, p.y + r⟩ ⟨p.x + r, p.y⟩
      = BoundingBox.mk ⟨p.x, p.y⟩ ⟨p.x + r, p.y + r⟩ := by
    unfold BoundingBox.new
    dsimp only
    rw [min_eq_left (by linarith : p.x ≤ p.x + r),
        min_eq_right (by linarith : p.y ≤ p.y + r),
        max_eq_right (by linarith : p.x ≤ p.x + r),
        max_eq_left (by linarith : p.y ≤ p.y + r)]
  have e2 : BoundingBox.new ⟨p.x, p.y⟩ ⟨p.x, p.y + r⟩
      = BoundingBox.mk ⟨p.x, p.y⟩ ⟨p.x, p.y + r⟩ := by
    unfold BoundingBox.new
    dsimp only
    rw [min_self, max_self,
        min_eq_left (by linarith : p.y ≤ p.y + r),
        max_eq_right (by linarith : p.y ≤ p.y + r)]
  have e3 : BoundingBox.new ⟨p.x, p.y + r⟩ ⟨p.x - r, p.y⟩
      = BoundingBox.mk ⟨p.x - r, p.y⟩ ⟨p.x, p.y + r⟩ := by
    unfold BoundingBox.new
    dsimp only
    rw [min_eq_right (by linarith : p.x - r ≤ p.x),
        min_eq_right (by linarith : p.y ≤ p.y + r),
        max_eq_left (by linarith : p.x - r ≤ p.x),
        max_eq_left (by linarith : p.y ≤ p.y + r)]
  have e4 : BoundingBox.new ⟨p.x, p.y + r⟩ ⟨p.x, p.y - r⟩
      = BoundingBox.mk ⟨p.x, p.y - r⟩ ⟨p.x, p.y + r⟩ := by
    unfold BoundingBox.new
    dsimp only
    rw [min_self, max_self,
        min_eq_right (by linarith : p.y - r ≤ p.y + r),
        max_eq_left (by linarith : p.y - r ≤ p.y + r)]
  unfold Ecs.arc_bounding_box
  dsimp only
  rw [hstart, hend, if_pos hc0, if_pos hc1, if_pos hc2, if_pos hc3]
  rw [e0]
  dsimp only
  rw [e1]
  dsimp only
  rw [e2]
  dsimp only
  rw [e3]
  dsimp only
  rw [e4]

theorem default_world_contains (a b : Vec2)
    (h1 : -Ecs.world_radius ≤ min a.x b.x)
    (h2 : max a.x b.x ≤ Ecs.world_radius)
    (h3 : -Ecs.world_radius ≤ min a.y b.y)
    (h4 : max a.y b.y ≤ Ecs.world_radius) :
    Ecs.rect_contains_rect Ecs.Space.default.quadtree.world
      (BoundingBox.new a b) := by
  refine Or.inr ⟨?_, ?_, ?_, ?_⟩
  · show min (-Ecs.world_radius) Ecs.world_radius ≤ min a.x b.x
    exact le_trans (min_le_left _ _) h1
  · show max a.x b.x ≤ max (-Ecs.world_radius) Ecs.world_radius
    exact le_trans h2 (le_max_right _ _)
  · show min (-Ecs.world_radius) Ecs.world_radius ≤ min a.y b.y
    exact le_trans (min_le_left _ _) h3
  · show max a.y b.y ≤ max (-Ecs.world_radius) Ecs.world_radius
    exact le_trans h4 (le_max_right _ _)

/-- The space obtained by inserting one entity (raw id `5`) with bounds
`[2,3] × [-1,1]` into the default space via `modify`. -/
def space1 : Ecs.Space :=
  Ecs.Space.modify Ecs.Space.default ⟨BoundingBox.new ⟨2, -1⟩ ⟨3, 1⟩, 5⟩

theorem space1_eq :
    space1 = ⟨⟨Ecs.Space.default.quadtree.world,
        [(0, ⟨BoundingBox.new ⟨2, -1⟩ ⟨3, 1⟩, 5⟩)], 1⟩, [(5, 0)]⟩ := by
  have hw : Ecs.rect_contains_rect Ecs.Space.default.quadtree.world
      (BoundingBox.new ⟨2, -1⟩ ⟨3, 1⟩) := by
    refine default_world_contains _ _ ?_ ?_ ?_ ?_ <;>
      · first
        | exact le_min (by norm_num [Ecs.world_radius])
            (by norm_num [Ecs.world_radius])
        | exact max_le (by norm_num [Ecs.world_radius])
            (by norm_num [Ecs.world_radius])
  unfold space1 Ecs.Space.modify
  dsimp only
  rw [if_neg (not_not_intro hw)]
  rfl

/-- C2 (failing evaluation): the box `query_point` uses for its cursor circle
is the degenerate vertical segment `[p.x, p.x] × [p.y-r, p.y+r]`, not the
square `[p.x-r, p.x+r] × [p.y-r, p.y+r]` the claim describes (the legacy
`point_at` swaps sin and cos, and each extremum step of the bounding-box
computation keeps only one corner of the accumulated box); consequently, on a
space holding one entity with bounds `[2,3] × [-1,1]`, `query_point((0,0), 5)`
returns nothing while `query_region` over the claimed square returns that
entity. -/
theorem c2_query_point_box_collapses :
    (∀ (p : Vec2) (r : ℝ), 0 < r →
      Ecs.arc_bounding_box ⟨p, r, 0, 2 * Real.pi⟩
          = BoundingBox.mk ⟨p.x, p.y - r⟩ ⟨p.x, p.y + r⟩ ∧
      BoundingBox.mk ⟨p.x, p.y - r⟩ ⟨p.x, p.y + r⟩
          ≠ BoundingBox.new ⟨p.x - r, p.y - r⟩ ⟨p.x + r, p.y + r⟩) ∧
    (Ecs.Space.query_point space1 ⟨0, 0⟩ 5 = [] ∧
     Ecs.Space.query_region space1 (BoundingBox.new ⟨-5, -5⟩ ⟨5, 5⟩)
        = [⟨BoundingBox.new ⟨2, -1⟩ ⟨3, 1⟩, 5⟩] ∧
     Ecs.Space.query_point space1 ⟨0, 0⟩ 5
        ≠ Ecs.Space.query_region space1 (BoundingBox.new ⟨-5, -5⟩ ⟨5, 5⟩)) := by
  have hq1 : Ecs.Space.query_point space1 ⟨0, 0⟩ 5 = [] := by
    unfold Ecs.Space.query_point Ecs.Space.query_region Ecs.QuadTree.query
    rw [full_circle_box ⟨0, 0⟩ 5 (by norm_num)]
    rw [space1_eq]
    dsimp only
    have hnot : ¬ Ecs.rect_intersects (BoundingBox.new ⟨2, -1⟩ ⟨3, 1⟩)
        (BoundingBox.mk ⟨(⟨0, 0⟩ : Vec2).x, (⟨0, 0⟩ : Vec2).y - 5⟩
          ⟨(⟨0, 0⟩ : Vec2).x, (⟨0, 0⟩ : Vec2).y + 5⟩) := by
      intro h
      have h1 : min (2 : ℝ) 3 < (0 : ℝ) := h.1
      rw [min_eq_left (by norm_num : (2 : ℝ) ≤ 3)] at h1
      norm_num at h1
    simp only [List.filter_cons, List.filter_nil]
    rw [if_neg (by simp only [decide_eq_true_eq]; exact hnot)]
    simp
  have hq2 : Ecs.Space.query_region space1 (BoundingBox.new ⟨-5, -5⟩ ⟨5, 5⟩)
      = [⟨BoundingBox.new ⟨2, -1⟩ ⟨3, 1⟩, 5⟩] := by
    unfold Ecs.Space.query_region Ecs.QuadTree.query
    rw [space1_eq]
    dsimp only
    have hyes : Ecs.rect_intersects (BoundingBox.new ⟨2, -1⟩ ⟨3, 1⟩)
        (BoundingBox.new ⟨-5, -5⟩ ⟨5, 5⟩) := by
      refine ⟨?_, ?_, ?_, ?_⟩
      · show min (2 : ℝ) 3 < max (-5 : ℝ) 5
        exact lt_of_le_of_lt (min_le_left _ _)
          (lt_of_lt_of_le (by norm_num) (le_max_right _ _))
      · show min (-5 : ℝ) 5 < max (2 : ℝ) 3
        exact lt_of_le_of_lt (min_le_left _ _)
          (lt_of_lt_of_le (by norm_num) (le_max_left _ _))
      · show min (-1 : ℝ) 1 < max (-5 : ℝ) 5
        exact lt_of_le_of_lt (min_le_left _ _)
          (lt_of_lt_of_le (by norm_num) (le_max_right _ _))
      · show min (-5 : ℝ) 5 < max (-1 : ℝ) 1
        exact lt_of_le_of_lt (min_le_left _ _)
          (lt_of_lt_of_le (by norm_num) (le_max_right _ _))
    simp only [List.filter_cons, List.filter_nil]
    rw [if_pos (by simp only [decide_eq_true_eq]; exact hyes)]
    simp
  refine ⟨?_, hq1, hq2, ?_⟩
  · intro p r hr
    refine ⟨full_circle_box p r hr, ?_⟩
    intro h
    have h2 := congrArg BoundingBox.max_x h
    simp only [BoundingBox.max_x, BoundingBox.new] at h2
    rw [max_eq_right (by linarith : p.x - r ≤ p.x + r)] at h2
    linarith
  · rw [hq1, hq2]
    simp

/-- Witness for C2 at the concrete centre `(1,2)` and radius `3`. -/
theorem c2_witness :
    Ecs.arc_bounding_box ⟨⟨1, 2⟩, 3, 0, 2 * Real.pi⟩
        = BoundingBox.mk ⟨(⟨1, 2⟩ : Vec2).x, (⟨1, 2⟩ : Vec2).y - 3⟩
            ⟨(⟨1, 2⟩ : Vec2).x, (⟨1, 2⟩ : Vec2).y + 3⟩ ∧
    BoundingBox.mk ⟨(⟨1, 2⟩ : Vec2).x, (⟨1, 2⟩ : Vec2).y - 3⟩
        ⟨(⟨1, 2⟩ : Vec2).x, (⟨1, 2⟩ : Vec2).y + 3⟩
      ≠ BoundingBox.new ⟨(⟨1, 2⟩ : Vec2).x - 3, (⟨1, 2⟩ : Vec2).y - 3⟩
          ⟨(⟨1, 2⟩ : Vec2).x + 3, (⟨1, 2⟩ : Vec2).y + 3⟩ :=
  c2_query_point_box_collapses.1 ⟨1, 2⟩ 3 (by norm_num)

/-- The space obtained from the empty default space by three `modify` calls
for the same entity (raw id `7`) with three different boxes. -/
def space_3modify : Ecs.Space :=
  ((Ecs.Space.default.modify ⟨BoundingBox.new ⟨0, 0⟩ ⟨1, 1⟩, 7⟩).modify
      ⟨BoundingBox.new ⟨0, 0⟩ ⟨2, 2⟩, 7⟩).modify
    ⟨BoundingBox.new ⟨0, 0⟩ ⟨3, 3⟩, 7⟩

theorem space_3modify_eq :
    space_3modify
      = ⟨⟨Ecs.Space.default.quadtree.world,
          [(2, ⟨BoundingBox.new ⟨0, 0⟩ ⟨3, 3⟩, 7⟩),
           (1, ⟨BoundingBox.new ⟨0, 0⟩ ⟨2, 2⟩, 7⟩)], 3⟩,
         [(7, 0)]⟩ := by
  have hw1 : Ecs.rect_contains_rect Ecs.Space.default.quadtree.world
      (BoundingBox.new ⟨0, 0⟩ ⟨1, 1⟩) := by
    refine default_world_contains _ _ ?_ ?_ ?_ ?_ <;>
      · first
        | exact le_min (by norm_num [Ecs.world_radius])
            (by norm_num [Ecs.world_radius])
        | exact max_le (by norm_num [Ecs.world_radius])
            (by norm_num [Ecs.world_radius])
  have hw2 : Ecs.rect_contains_rect Ecs.Space.default.quadtree.world
      (BoundingBox.new ⟨0, 0⟩ ⟨2, 2⟩) := by
    refine default_world_contains _ _ ?_ ?_ ?_ ?_ <;>
      · first
        | exact le_min (by norm_num [Ecs.world_radius])
            (by norm_num [Ecs.world_radius])
        | exact max_le (by norm_num [Ecs.world_radius])
            (by norm_num [Ecs.world_radius])
  have hw3 : Ecs.rect_contains_rect Ecs.Space.default.quadtree.world
      (BoundingBox.new ⟨0, 0⟩ ⟨3, 3⟩) := by
    refine default_world_contains _ _ ?_ ?_ ?_ ?_ <;>
      · first
        | exact le_min (by norm_num [Ecs.world_radius])
            (by norm_num [Ecs.world_radius])
        | exact max_le (by norm_num [Ecs.world_radius])
            (by norm_num [Ecs.world_radius])
  have hs1 : Ecs.Space.default.modify ⟨BoundingBox.new ⟨0, 0⟩ ⟨1, 1⟩, 7⟩
      = ⟨⟨Ecs.Space.default.quadtree.world,
          [(0, ⟨BoundingBox.new ⟨0, 0⟩ ⟨1, 1⟩, 7⟩)], 1⟩, [(7, 0)]⟩ := by
    unfold Ecs.Space.modify
    dsimp only
    rw [if_neg (not_not_intro hw1)]
    rfl
  have hs2 : Ecs.Space.modify
      ⟨⟨Ecs.Space.default.quadtree.world,
          [(0, ⟨BoundingBox.new ⟨0, 0⟩ ⟨1, 1⟩, 7⟩)], 1⟩, [(7, 0)]⟩
      ⟨BoundingBox.new ⟨0, 0⟩ ⟨2, 2⟩, 7⟩
      = ⟨⟨Ecs.Space.default.quadtree.world,
          [(1, ⟨BoundingBox.new ⟨0, 0⟩ ⟨2, 2⟩, 7⟩)], 2⟩, [(7, 0)]⟩ := by
    unfold Ecs.Space.modify
    dsimp only
    rw [if_neg (not_not_intro hw2)]
    rfl
  have hs3 : Ecs.Space.modify
      ⟨⟨Ecs.Space.default.quadtree.world,
          [(1, ⟨BoundingBox.new ⟨0, 0⟩ ⟨2, 2⟩, 7⟩)], 2⟩, [(7, 0)]⟩
      ⟨BoundingBox.new ⟨0, 0⟩ ⟨3, 3⟩, 7⟩
      = ⟨⟨Ecs.Space.default.quadtree.world,
          [(2, ⟨BoundingBox.new ⟨0, 0⟩ ⟨3, 3⟩, 7⟩),
           (1, ⟨BoundingBox.new ⟨0, 0⟩ ⟨2, 2⟩, 7⟩)], 3⟩, [(7, 0)]⟩ := by
    unfold Ecs.Space.modify
    dsimp only
    rw [if_neg (not_not_intro hw3)]
    rfl
  unfold space_3modify
  rw [hs1, hs2, hs3]

/-- C1 (failing evaluation): after three `modify` calls for the same entity
`7` with three different boxes, the tree holds TWO live records for entity
`7` and the side table still maps `7` to item id `0`, which names no live
record: `modify` updates the table with `entry(..).or_insert(id)`, which
never overwrites, so from the second call on it removes a stale id and leaks
the freshly inserted record of the previous call. -/
theorem c1_modify_leaks_records :
    space_3modify.quadtree.elems.map (fun e => e.2.entity) = [7, 7] ∧
    space_3modify.ids = [(7, 0)] ∧
    ∀ e ∈ space_3modify.quadtree.elems, e.1 ≠ 0 := by
  rw [space_3modify_eq]
  refine ⟨rfl, rfl, ?_⟩
  intro e he
  simp only [List.mem_cons, List.not_mem_nil, or_false] at he
  rcases he with h | h <;>
    · rw [h]
      norm_num

end Arcs
